import Mathlib

/-!
# Oxen commit storage engine: shallow embedding and verification

This file embeds the core data structures and algorithms of the Oxen
versioned data store as Lean definitions translated from the Rust
sources under `src/`, and settles the frozen claims about them:

* hashing and hex rendering utilities (`src/lib/src/util/hasher.rs`),
* the commit pipeline (`src/lib/src/core/v0_19_0/index/commit_writer.rs`),
* the merkle node database (`src/lib/src/core/db/merkle_node_db.rs`),
* the legacy-layout migration (`src/lib/src/command/migrate/m05_optimize_merkle_tree.rs`),
* the fetch protocol (`src/lib/src/core/v0_19_0/fetch.rs`),
* merkle tree path lookup
  (`src/lib/src/core/v0_19_0/index/merkle_tree/node/merkle_tree_node_data.rs`),
* the commit command and error type (`src/lib/src/command.rs`, `src/lib/src/error.rs`).

Modelling conventions:

* Machine integers (`u64`, `u128`, `usize`) are modelled as `Nat`, with
  explicit reductions `% 2 ^ 64` / `% 2 ^ 128` where wrapping matters and
  explicit bound hypotheses elsewhere.
* Byte buffers are `List Nat` whose elements are below 256.
* The external `xxhash_rust::xxh3` 128-bit streaming hash is modelled as
  a concrete order-sensitive fold over the streamed bytes, reduced
  `% 2 ^ 128`.  The source treats the digest as an opaque pure function
  of the streamed bytes; every positive claim below needs only that, and
  counterexamples evaluate the model at concrete inputs (the byte
  streams fed to the hasher differ there, so the real digests differ as
  well unless xxh3 collides on 32-byte inputs).
* Rust `std::collections::HashMap` does not fix an iteration order (it
  is randomized per process).  Maps are therefore modelled as
  association lists carrying an explicit iteration order, and order
  (in)dependence is stated by quantifying over permutations of the list.
* Rust `Path` values are modelled as their component lists
  (`List String`); `Path::join` with an empty segment adds no component
  and path equality is component-wise, as in Rust.
* Strings are modelled over their character lists; `str::as_bytes` is
  modelled as the character codes (faithful for ASCII data).
-/

namespace Oxen

/-- Little-endian byte encoding of a natural number into `w` bytes.
Models `u64::to_le_bytes` (`w = 8`) and `u128::to_le_bytes` (`w = 16`);
values of `w`-byte machine integers are below `256 ^ w`, and the
encoding reduces larger naturals exactly as the machine cast would. -/
def encodeLE : Nat → Nat → List Nat
  | 0, _ => []
  | w + 1, n => n % 256 :: encodeLE w (n / 256)

/-- Little-endian byte decoding; models `u64::from_le_bytes` and
`u128::from_le_bytes`. -/
def decodeLE (bytes : List Nat) : Nat :=
  bytes.foldr (fun b acc => acc * 256 + b) 0

/-- Bytes of a `u64` value, little endian. -/
def u64le (n : Nat) : List Nat := encodeLE 8 n

/-- Bytes of a `u128` value, little endian. -/
def u128le (n : Nat) : List Nat := encodeLE 16 n

/-- Model of the external `xxhash_rust::xxh3` 128-bit hash of a byte
stream (`Xxh3::new`, a sequence of `update` calls, then `digest128`; and
the one-shot `xxh3_128`).  The digest is an opaque pure function of the
concatenation of all streamed bytes into `u128`; it is modelled by a
concrete order-sensitive fold reduced `% 2 ^ 128` so that claims can be
evaluated on concrete inputs. -/
def xxh3digest128 (stream : List Nat) : Nat :=
  (stream.foldl (fun acc b => acc * 257 + b % 256 + 1) 1) % 2 ^ 128

/-- Model of `std::hash::DefaultHasher` fed one `u128` value via
`Hash::hash` followed by `finish` (a 64-bit SipHash-1-3 digest): an
opaque pure function from the `u128` into `u64`, modelled as a concrete
fold over the 16 little-endian bytes reduced `% 2 ^ 64`. -/
def defaultHasherFinishU128 (v : Nat) : Nat :=
  ((u128le v).foldl (fun acc b => acc * 131 + b + 7) 5) % 2 ^ 64

/-- Character for one lowercase hexadecimal digit, as produced by the
Rust `LowerHex` formatter. -/
def hexDigitLower (d : Nat) : Char :=
  if d < 10 then Char.ofNat (48 + d) else Char.ofNat (87 + d)

/-- Character for one uppercase hexadecimal digit, as produced by the
Rust `UpperHex` formatter. -/
def hexDigitUpper (d : Nat) : Char :=
  if d < 10 then Char.ofNat (48 + d) else Char.ofNat (55 + d)

/-- Hexadecimal digits of `n`, least significant first, with no leading
zeros (empty for `n = 0`).  Fuel-structured so that it evaluates in the
kernel; any `fuel ≥ n` is exact. -/
def hexDigitsF : Nat → Nat → List Nat
  | 0, _ => []
  | fuel + 1, n => if n = 0 then [] else n % 16 :: hexDigitsF fuel (n / 16)

/-- Model of Rust `format!` with the `{:x}` specifier on an unsigned
integer: minimal-width lowercase hexadecimal, no prefix, no padding,
and the single digit 0 for zero. -/
def formatLowerHex (n : Nat) : List Char :=
  if n = 0 then ['0'] else ((hexDigitsF n n).map hexDigitLower).reverse

/-- Model of Rust `format!` with the `{:X}` specifier on an unsigned
integer: minimal-width uppercase hexadecimal, no prefix, no padding. -/
def formatUpperHex (n : Nat) : List Char :=
  if n = 0 then ['0'] else ((hexDigitsF n n).map hexDigitUpper).reverse

/-- Model of `util::hasher::hash_buffer` (hasher.rs lines 10-15): the
xxh3 128-bit digest of the buffer is re-hashed with the 64-bit
`DefaultHasher` and the 64-bit result is rendered with `{:X}`. -/
def hash_buffer (buffer : List Nat) : List Char :=
  formatUpperHex (defaultHasherFinishU128 (xxh3digest128 buffer))

/-- Model of `util::hasher::hash_buffer_128bit` (hasher.rs lines 23-25):
the raw xxh3 128-bit digest of the buffer. -/
def hash_buffer_128bit (buffer : List Nat) : Nat :=
  xxh3digest128 buffer

/-! ## Vnode bucketing and the commit pipeline

Translated from `core/v0_19_0/index/commit_writer.rs`. -/

/-- Exact value of the commit-writer vnode count exponent
`(total_children as f32 / 10000_f32).log2().ceil() as u32`
(commit_writer.rs lines 163-165), namely the least `j` with
`k ≤ d * 2 ^ j`: the `as u32` cast saturates the negative ceilings
(`k < d`), the NaN produced for `k = 0`, and the exact zero for `k = d`
all to `0`.  Fuel-structured with any `fuel ≥ k` exact, so that it
evaluates in the kernel; the f32 arithmetic is modelled as exact real
arithmetic (`k as f32` and the division round for huge `k`, which the
model ignores). -/
def ceilLog2DivF : Nat → Nat → Nat → Nat
  | 0, _, _ => 0
  | fuel + 1, k, d => if k ≤ d then 0 else ceilLog2DivF fuel ((k + 1) / 2) d + 1

/-- Number of vnodes for a directory with `k` children in the commit
writer: `2u128.pow(num_vnodes.ceil() as u32)` (commit_writer.rs line 165). -/
def numVNodesCommitWriter (k : Nat) : Nat :=
  2 ^ ceilLog2DivF k k 10000

/-- Number of vnodes for a directory with `k` children in the migration
(m05_optimize_merkle_tree.rs lines 417-420):
`(total_children as f32 / vnode_size as f32).ceil() as u128` with
`vnode_size = 10_000`, i.e. the ceiling division, modelled exactly. -/
def numVNodesMigrate (k : Nat) : Nat :=
  (k + 10000 - 1) / 10000

/-- Existence bound for the spec-side vnode count formula. -/
def existsPowBound (k : Nat) : ∃ j, k ≤ 10000 * 2 ^ j :=
  ⟨k, le_trans (Nat.le_of_lt (Nat.lt_two_pow k)) (by
    have h1 : 1 * 2 ^ k ≤ 10000 * 2 ^ k := by
      exact Nat.mul_le_mul_right _ (by omega)
    omega)⟩

/-- Spec-side vnode count formula, written from the spec sentence
`N = max(1, 2 ^ ceil(log2(children / 10_000)))`: the ceiling of the
real logarithm of `k / 10000` is the least integer `j` with
`k / 10000 ≤ 2 ^ j`; for `k ≤ 10000` the real ceiling is nonpositive
and the `max` with 1 makes the nonnegative clamp harmless, so the least
natural such `j` is used. -/
def specNumVNodes (k : Nat) : Nat :=
  max 1 (2 ^ Nat.find (existsPowBound k))

/-- Path of an entry inside the repository, as its list of components
(Rust `PathBuf`, compared and ordered component-wise). -/
abbrev OxPath := List String

/-- Data type of a staged entry (`EntryDataType` in the model crate,
declared outside `src/`; the commit writer distinguishes only `Dir`
from the rest). -/
inductive EntryDataType where
  | dir
  | text
  | binary
  | tabular
deriving DecidableEq, Repr

/-- Staged entry with its path (commit_writer.rs lines 41-47). -/
structure EntryMetaDataWithPath where
  path : OxPath
  hash : Nat
  num_bytes : Nat
  data_type : EntryDataType
deriving DecidableEq, Repr

/-- A vnode under construction (commit_writer.rs lines 26-30). -/
structure EntryVNode where
  id : Nat
  entries : List EntryMetaDataWithPath
deriving DecidableEq, Repr

instance : Inhabited EntryVNode := ⟨⟨0, []⟩⟩

/-- Strict lexicographic order on character lists, modelling the `Ord`
instance of Rust string slices (byte order, which on the character
level is code point order). -/
def charListLt : List Char → List Char → Bool
  | [], [] => false
  | [], _ :: _ => true
  | _ :: _, [] => false
  | c :: cs, d :: ds => if c < d then true else if c = d then charListLt cs ds else false

/-- Strict order on strings (Rust `str::cmp`). -/
def strLt (a b : String) : Bool :=
  charListLt a.data b.data

/-- Boolean component-wise lexicographic order on paths, modelling
`PathBuf::cmp` as used by `sort_by(|a, b| a.path.cmp(&b.path))`. -/
def pathLe (a b : OxPath) : Bool :=
  match a, b with
  | [], _ => true
  | _ :: _, [] => false
  | x :: xs, y :: ys => if strLt x y then true else if x == y then pathLe xs ys else false

/-- Entry comparator used to sort a vnode bucket by path. -/
def entryLe (a b : EntryMetaDataWithPath) : Bool :=
  pathLe a.path b.path

/-- Insertion of an element into a sorted list, keeping it before the
first element it compares less-or-equal to. -/
def insertSorted (le : α → α → Bool) (x : α) : List α → List α
  | [] => [x]
  | y :: ys => if le x y then x :: y :: ys else y :: insertSorted le x ys

/-- Stable insertion sort; models Rust `sort_by` (also a stable sort,
so the two agree on every input for a total comparator) and evaluates
in the kernel. -/
def insertionSort (le : α → α → Bool) : List α → List α
  | [] => []
  | x :: xs => insertSorted le x (insertionSort le xs)

/-- Distribution of items over `n` buckets by `hashOf item % n`,
keeping the arrival order inside each bucket; shared shape of the
bucket loops in commit_writer.rs lines 167-173 and
m05_optimize_merkle_tree.rs lines 428-434. -/
def bucketizeBy (n : Nat) (hashOf : α → Nat) (children : List α) : List (List α) :=
  children.foldl
    (fun acc c => acc.set (hashOf c % n) (acc.getD (hashOf c % n) [] ++ [c]))
    (List.replicate n [])

/-- Distribution of the children of one directory over `n` buckets by
`child.hash % n` (commit_writer.rs lines 167-173). -/
def bucketize (n : Nat) (children : List EntryMetaDataWithPath) : List (List EntryMetaDataWithPath) :=
  bucketizeBy n (fun c => c.hash) children

/-- Byte stream fed to the vnode hasher for one bucket: the 16
little-endian bytes of each entry hash, in bucket order
(commit_writer.rs lines 177-182). -/
def vnodeStream (bucket : List EntryMetaDataWithPath) : List Nat :=
  (bucket.map (fun e => u128le e.hash)).flatten

/-- Vnodes of one directory (the loop body of `split_into_vnodes`,
commit_writer.rs lines 161-190): bucket the children, hash each bucket
in arrival order, then sort the entries of each vnode by path. -/
def splitDirIntoVnodes (children : List EntryMetaDataWithPath) : List EntryVNode :=
  let numVnodes := numVNodesCommitWriter children.length
  (bucketize numVnodes children).map
    (fun bucket =>
      { id := xxh3digest128 (vnodeStream bucket),
        entries := insertionSort entryLe bucket })

/-- Model of `split_into_vnodes` (commit_writer.rs lines 155-195).  The
`HashMap<PathBuf, Vec<EntryMetaDataWithPath>>` argument is modelled as
an association list in its iteration order. -/
def split_into_vnodes (entries : List (OxPath × List EntryMetaDataWithPath)) :
    List (OxPath × List EntryVNode) :=
  entries.map (fun p => (p.1, splitDirIntoVnodes p.2))

/-- Byte stream fed to the commit-id hasher (commit_writer.rs lines
197-207): the 16 little-endian bytes of every entry hash, over all
directories (in map iteration order) and all their vnodes. -/
def commitIdStream (entries : List (OxPath × List EntryVNode)) : List Nat :=
  (entries.map (fun p => (p.2.map (fun v => vnodeStream v.entries)).flatten)).flatten

/-- Model of `compute_commit_id` (commit_writer.rs lines 197-207). -/
def compute_commit_id (entries : List (OxPath × List EntryVNode)) : Nat :=
  xxh3digest128 (commitIdStream entries)

/-- Commit node as constructed by the commit pipeline
(commit_writer.rs lines 121-129; the struct itself is declared outside
`src/`, its fields are taken from this construction site and the spec
data model). -/
structure CommitNode where
  id : Nat
  parent_ids : List Nat
  message : String
  author : String
  email : String
  timestamp : Nat
deriving DecidableEq, Repr

/-- Pure core of the `commit` pipeline (commit_writer.rs lines 49-153)
on an already-read staging map: `split_into_vnodes`, then
`compute_commit_id`, then the `CommitNode` assembly with the parents,
message, author, email and timestamp. -/
def commitPipelineNode (dirEntries : List (OxPath × List EntryMetaDataWithPath))
    (parent_ids : List Nat) (message author email : String) (timestamp : Nat) :
    CommitNode :=
  { id := compute_commit_id (split_into_vnodes dirEntries),
    parent_ids := parent_ids,
    message := message,
    author := author,
    email := email,
    timestamp := timestamp }

/-- ASCII byte codes of a string, modelling `str::as_bytes`. -/
def strBytes (s : String) : List Nat :=
  s.data.map Char.toNat

/-- Spec-side commit hash formula, written from the spec sentence
`hash_bytes(parent_hashes_sorted || root_dir_hash || message || author
|| email || timestamp_le_bytes)`, for comparison with the code-side
commit id. -/
def specCommitHash (parents : List Nat) (rootDirHash : Nat)
    (message author email : String) (timestamp : Nat) : Nat :=
  xxh3digest128
    (((insertionSort (fun a b => decide (a ≤ b)) parents).map u128le).flatten
      ++ u128le rootDirHash ++ strBytes message ++ strBytes author
      ++ strBytes email ++ u64le timestamp)

/-- Boolean test of `Path::starts_with`: the second path is a
component-wise prefix of the first. -/
def pathStartsWith : OxPath → OxPath → Bool
  | _, [] => true
  | [], _ :: _ => false
  | a :: as_, b :: bs => a = b && pathStartsWith as_ bs

/-- Model of `get_children` (commit_writer.rs lines 311-325): the keys
of the entries map, in map iteration order, whose path starts with the
directory path (this collects the directory itself and all its
descendants). -/
def get_children (entries : List (OxPath × List EntryVNode)) (dirPath : OxPath) :
    List OxPath :=
  (entries.filter (fun p => pathStartsWith p.1 dirPath)).map (fun p => p.1)

/-- Byte stream fed to the directory hasher by `aggregate_dir_node`
(commit_writer.rs lines 327-366): for each child directory of the map
(in map iteration order), for each of its vnodes, the 16 little-endian
bytes of each non-directory entry hash.  Metadata aggregation
(`num_bytes`, `data_type_counts`), which does not feed the hash, is not
modelled. -/
def aggregateDirStream (entries : List (OxPath × List EntryVNode)) (path : OxPath) :
    List Nat :=
  ((get_children entries path).map
    (fun child =>
      match entries.find? (fun p => p.1 == child) with
      | some (_, vnodes) =>
        (vnodes.map
          (fun v =>
            ((v.entries.filter (fun e => !(e.data_type == EntryDataType.dir))).map
              (fun e => u128le e.hash)).flatten)).flatten
      | none => [])).flatten

/-- Hash field of the `DirNode` built by `aggregate_dir_node`
(commit_writer.rs lines 327-380). -/
def aggregate_dir_node_hash (entries : List (OxPath × List EntryVNode))
    (path : OxPath) : Nat :=
  xxh3digest128 (aggregateDirStream entries path)

/-! ## Migration vnode rebucketing

Translated from `command/migrate/m05_optimize_merkle_tree.rs`,
`migrate_dir`, lines 417-462. -/

/-- String form of a path (`Path::to_str`): components joined by
slashes, empty for the root. -/
def pathToString (p : OxPath) : String :=
  String.intercalate "/" p

/-- Hex string of a legacy object hash as stored in the legacy object
database and returned by `TreeObjectChild::hash()`; legacy hashes were
rendered with the `{:x}` formatter, and `u128::from_str_radix(s, 16)`
recovers the numeric value. -/
def hashHexString (h : Nat) : String :=
  String.mk (formatLowerHex h)

/-- Legacy tree object child (`TreeObjectChild`, declared outside
`src/`; the variants and their `path`/`hash` fields are taken from the
match sites in `migrate_dir`).  The stored hex hash string is modelled
by the numeric hash, rendered with `hashHexString` where the code uses
the string bytes. -/
inductive TreeObjectChild where
  | vnode (path : OxPath) (hash : Nat)
  | file (path : OxPath) (hash : Nat)
  | dir (path : OxPath) (hash : Nat)
  | schema (path : OxPath) (hash : Nat)
deriving DecidableEq, Repr

/-- Numeric hash of a legacy child
(`u128::from_str_radix(child.hash(), 16)`). -/
def TreeObjectChild.hashInt : TreeObjectChild → Nat
  | .vnode _ h => h
  | .file _ h => h
  | .dir _ h => h
  | .schema _ h => h

/-- Bucketing of the flattened children in `migrate_dir`
(m05_optimize_merkle_tree.rs lines 428-434): `ceil(k / 10000)` buckets,
child index `hash_int % num_vnodes`. -/
def migrateBuckets (children : List TreeObjectChild) : List (List TreeObjectChild) :=
  bucketizeBy (numVNodesMigrate children.length) TreeObjectChild.hashInt children

/-- Byte stream fed to the migration vnode hasher for one bucket
(m05_optimize_merkle_tree.rs lines 439-449): the literal bytes
`"vnode"`, then the parent directory path string, then the hex hash
string of each child in bucket order (children are not sorted). -/
def migrateVnodeStream (dirPath : OxPath) (bucket : List TreeObjectChild) : List Nat :=
  strBytes "vnode" ++ strBytes (pathToString dirPath)
    ++ (bucket.map (fun c => strBytes (hashHexString c.hashInt))).flatten

/-- New vnode hashes computed by `migrate_dir` for one directory, in
bucket order (m05_optimize_merkle_tree.rs lines 436-450). -/
def migrateBucketHashes (dirPath : OxPath) (children : List TreeObjectChild) : List Nat :=
  (migrateBuckets children).map (fun bucket => xxh3digest128 (migrateVnodeStream dirPath bucket))

/-- Spec-side vnode hash formula, written from the spec sentence: the
hash of the concatenation of the parent directory path and the child
hashes after sorting the children by path, for comparison with the
code-side vnode ids. -/
def specVNodeHash (dirPath : OxPath) (children : List EntryMetaDataWithPath) : Nat :=
  xxh3digest128
    (strBytes (pathToString dirPath)
      ++ ((insertionSort entryLe children).map (fun e => u128le e.hash)).flatten)

/-! ## Merkle node database

Translated from `core/db/merkle_node_db.rs`.  Files are modelled as the
byte lists written so far; serialized items (`rmp_serde` buffers) are
modelled by their byte lists, since the external msgpack round-trip is
out of scope.  The in-memory `offsets: HashMap<u128, (u64, u64)>` of
`MerkleNodeLookup` is modelled as the record list in file order, with
iteration-order-dependent operations quantified over permutations. -/

/-- Writer state of a `MerkleNodeDB` opened read-write: the `size` and
`data_offset` fields and the bytes written so far to the `lookup` and
`data` files. -/
structure NodeDBWriter where
  size : Nat
  dataOffset : Nat
  lookupFile : List Nat
  dataFile : List Nat
deriving DecidableEq, Repr

namespace NodeDBWriter

/-- Fresh writer produced by `open_read_write` (merkle_node_db.rs lines
139-153): `File::create` truncates both files. -/
def openWrite : NodeDBWriter :=
  { size := 0, dataOffset := 0, lookupFile := [], dataFile := [] }

/-- Model of `MerkleNodeDB::write_size` (merkle_node_db.rs lines
177-200). -/
def write_size (w : NodeDBWriter) (size : Nat) : Except String NodeDBWriter :=
  if w.size > 0 then .error "Cannot write size twice"
  else if w.dataOffset > 0 then .error "Cannot write size after writing data"
  else .ok { w with lookupFile := w.lookupFile ++ u64le size, size := size }

/-- Model of `MerkleNodeDB::write_one` (merkle_node_db.rs lines
202-239): append the 32-byte lookup record and the serialized item
bytes. -/
def write_one (w : NodeDBWriter) (hash : Nat) (buf : List Nat) : Except String NodeDBWriter :=
  if w.size = 0 then .error "Must call write_size before writing"
  else .ok
    { size := w.size,
      dataOffset := w.dataOffset + buf.length,
      lookupFile := w.lookupFile ++ u128le hash ++ u64le w.dataOffset ++ u64le buf.length,
      dataFile := w.dataFile ++ buf }

/-- Sequence of `write_one` calls. -/
def writeEntries (w : NodeDBWriter) (entries : List (Nat × List Nat)) :
    Except String NodeDBWriter :=
  entries.foldlM (fun acc p => write_one acc p.1 p.2) w

end NodeDBWriter

/-- Read of exactly `w` bytes from the front of a byte list
(`read_exact` into a `w`-byte buffer followed by `from_le_bytes`),
returning the decoded value and the remaining bytes. -/
def readExactLE (w : Nat) (bytes : List Nat) : Option (Nat × List Nat) :=
  if w ≤ bytes.length then some (decodeLE (bytes.take w), bytes.drop w) else none

/-- Parse of `size` lookup records, each `child_hash: u128`,
`data_offset: u64`, `data_len: u64`, all little-endian
(`MerkleNodeLookup::load` loop, merkle_node_db.rs lines 69-83). -/
def loadRecords : Nat → List Nat → Option (List (Nat × Nat × Nat))
  | 0, _ => some []
  | n + 1, bytes => do
    let (hash, bytes) ← readExactLE 16 bytes
    let (off, bytes) ← readExactLE 8 bytes
    let (len, bytes) ← readExactLE 8 bytes
    let rest ← loadRecords n bytes
    some ((hash, off, len) :: rest)

/-- Model of `MerkleNodeLookup::load` (merkle_node_db.rs lines 54-86): a
little-endian `u64` count, then `count` records; `read_exact` past the
end of the file is an error (`none`). -/
def loadLookup (bytes : List Nat) : Option (Nat × List (Nat × Nat × Nat)) := do
  let (size, rest) ← readExactLE 8 bytes
  let records ← loadRecords size rest
  some (size, records)

/-- Bytes of the data file addressed by one lookup record. -/
def sliceRecord (dataFile : List Nat) (r : Nat × Nat × Nat) : List Nat :=
  (dataFile.drop r.2.1).take r.2.2

/-- Model of `MerkleNodeDB::get` (merkle_node_db.rs lines 277-307): look
the hash up in the loaded offsets map, seek and `read_exact`.  The
`HashMap` lookup is modelled by the first record with that hash (the
claims only use it with distinct hashes, where the two agree). -/
def nodeDBGet (records : List (Nat × Nat × Nat)) (dataFile : List Nat) (hash : Nat) :
    Except String (List Nat) :=
  match records.find? (fun r => r.1 == hash) with
  | none => .error "Cannot find hash in merkle node db"
  | some r =>
    if r.2.1 + r.2.2 ≤ dataFile.length then .ok (sliceRecord dataFile r)
    else .error "read_exact past end of data file"

/-- Model of `MerkleNodeDB::list` (merkle_node_db.rs lines 309-330): it
iterates `lookup.offsets.iter()` — a `HashMap` iteration whose order is
unspecified, passed here explicitly — and returns the deserialized
values only. -/
def nodeDBList (iterOrder : List (Nat × Nat × Nat)) (dataFile : List Nat) :
    Except String (List (List Nat)) :=
  iterOrder.mapM
    (fun r =>
      if r.2.1 + r.2.2 ≤ dataFile.length then .ok (sliceRecord dataFile r)
      else .error "read_exact past end of data file")

/-- Lookup records that a sequence of `write_one` calls starting at data
offset `d` appends: hash, running offset, length. -/
def mkRecords (d : Nat) : List (Nat × List Nat) → List (Nat × Nat × Nat)
  | [] => []
  | (h, b) :: es => (h, d, b.length) :: mkRecords (d + b.length) es

/-- Byte encoding of one lookup record. -/
def encodeRecord (r : Nat × Nat × Nat) : List Nat :=
  u128le r.1 ++ u64le r.2.1 ++ u64le r.2.2

/-- Byte encoding of a lookup record list. -/
def encodeRecords (rs : List (Nat × Nat × Nat)) : List Nat :=
  (rs.map encodeRecord).flatten

/-! ## Commit command and error type

Translated from `command.rs` lines 173-201 and `error.rs` lines 5-17. -/

/-- Error type of the library (`OxenError`, error.rs lines 5-17).  The
payloads of the wrapped external error types are modelled by their
messages.  There is no `Staging` variant. -/
inductive OxenError where
  | io (msg : String)
  | basic (msg : String)
  | tomlSer (msg : String)
  | tomlDe (msg : String)
  | uri (msg : String)
  | json (msg : String)
  | http (msg : String)
  | encoding (msg : String)
  | db (msg : String)
  | env (msg : String)
deriving DecidableEq, Repr

/-- Commit record returned by the v0.10 commit path (`model::Commit`;
only its existence matters to the claims). -/
structure Commit where
  id : String
deriving DecidableEq, Repr

/-- Modelled from the spec: `StagedData` is declared outside `src/`
(only its callers are present).  Spec section 4.6 describes the staging
area as a path-keyed store of pending entries; it is modelled as the
list of staged paths. -/
structure StagedData where
  entries : List OxPath
deriving DecidableEq, Repr

/-- Modelled from the spec: `StagedData::empty` produces a staging area
with no entries. -/
def StagedData.empty : StagedData := { entries := [] }

/-- Modelled from the spec: `has_added_entries` holds exactly when some
staged entry is pending. -/
def StagedData.has_added_entries (s : StagedData) : Bool :=
  !s.entries.isEmpty

/-- Model of `command::commit` (command.rs lines 173-183) on the status
it read: with nothing staged it prints a message and returns
`Ok(None)`; otherwise it delegates to `p_commit` (passed as an argument
here) and wraps the new commit in `Ok(Some(..))`. -/
def command_commit (p_commit : StagedData → String → Except OxenError Commit)
    (status : StagedData) (message : String) : Except OxenError (Option Commit) :=
  if !status.has_added_entries then .ok none
  else
    match p_commit status message with
    | .error e => .error e
    | .ok c => .ok (some c)

/-! ## Fetch protocol

Translated from `core/v0_19_0/fetch.rs`, `fetch_remote_branch`, lines
20-160.  The repository and network effects are modelled as a state
plus an environment of step outcomes: each external call either fails
without changing the state or succeeds and applies its effect (steps
are atomic at this granularity).  Branch refs are the component the
claim is about; downloads are recorded as flags standing for `every
node/blob of the corresponding download call is now present locally`. -/

/-- Remote branch record returned by `api::client::branches::get_by_name`. -/
structure RemoteBranchInfo where
  name : String
  commit_id : String
deriving DecidableEq, Repr

/-- Local repository state visible to `fetch_remote_branch`. -/
structure RepoState where
  branchRefs : List (String × String)
  treesDownloaded : Bool
  dirHashesDownloaded : Bool
  entriesPulled : Bool
  isShallow : Bool
  syncedCommits : List String
deriving DecidableEq, Repr

/-- Outcomes of the external calls made by `fetch_remote_branch`, in
program order.  An `Except` value is the result the call would return;
`.error` models any failing call (network error, missing data, ...). -/
structure FetchEnv where
  getBranchByName : Except String (Option RemoteBranchInfo)
  headCommitMaybe : Except String (Option String)
  hasNode : Except String Bool
  downloadTreesBetween : Except String Unit
  downloadBaseHeadDirHashes : Except String Unit
  downloadTreesFrom : Except String Unit
  downloadDirHashesFromCommit : Except String Unit
  listCommits : Except String (List String)
  collectMissingEntries : Except String (List String)
  pullEntries : Except String Unit
  writeIsShallow : Except String Unit
  markSynced : Except String Unit
  setBranchCommitId : Except String Unit

/-- Update of the branch ref store performed by
`RefWriter::set_branch_commit_id`. -/
def setBranch (refs : List (String × String)) (name commitId : String) :
    List (String × String) :=
  (name, commitId) :: refs.filter (fun p => !(p.1 == name))

/-- Tail of `fetch_remote_branch` after the tree downloads (fetch.rs
lines 106-159): collect and pull the missing entries, clear the shallow
flag, mark the commits synced, and only then advance the local branch
ref. -/
def fetchTail (env : FetchEnv) (rb : RemoteBranchInfo) (s : RepoState) :
    Except String Unit × RepoState :=
  match env.listCommits with
  | .error e => (.error e, s)
  | .ok commits =>
    match env.collectMissingEntries with
    | .error e => (.error e, s)
    | .ok _missing =>
      match env.pullEntries with
      | .error e => (.error e, s)
      | .ok _ =>
        let s := { s with entriesPulled := true }
        match env.writeIsShallow with
        | .error e => (.error e, s)
        | .ok _ =>
          let s := { s with isShallow := false }
          match env.markSynced with
          | .error e => (.error e, s)
          | .ok _ =>
            let s := { s with syncedCommits := s.syncedCommits ++ commits }
            match env.setBranchCommitId with
            | .error e => (.error e, s)
            | .ok _ =>
              (.ok (), { s with branchRefs := setBranch s.branchRefs rb.name rb.commit_id })

/-- Model of `fetch_remote_branch` (fetch.rs lines 20-160).  Control
flow: resolve the remote branch; read the local head; if the head
already equals the remote commit, set the branch ref and return;
otherwise download the node trees and dir hashes (between head and
remote when the remote knows the head, from scratch otherwise), then
run the entry-pulling tail which advances the ref last. -/
def fetch_remote_branch (env : FetchEnv) (s : RepoState) :
    Except String Unit × RepoState :=
  match env.getBranchByName with
  | .error e => (.error e, s)
  | .ok none => (.error "remote branch not found", s)
  | .ok (some rb) =>
    match env.headCommitMaybe with
    | .error e => (.error e, s)
    | .ok (some headId) =>
      if headId = rb.commit_id then
        match env.setBranchCommitId with
        | .error e => (.error e, s)
        | .ok _ => (.ok (), { s with branchRefs := setBranch s.branchRefs rb.name rb.commit_id })
      else
        match env.hasNode with
        | .error e => (.error e, s)
        | .ok true =>
          match env.downloadTreesBetween with
          | .error e => (.error e, s)
          | .ok _ =>
            let s := { s with treesDownloaded := true }
            match env.downloadBaseHeadDirHashes with
            | .error e => (.error e, s)
            | .ok _ => fetchTail env rb { s with dirHashesDownloaded := true }
        | .ok false =>
          match env.downloadTreesFrom with
          | .error e => (.error e, s)
          | .ok _ =>
            let s := { s with treesDownloaded := true }
            match env.downloadDirHashesFromCommit with
            | .error e => (.error e, s)
            | .ok _ => fetchTail env rb { s with dirHashesDownloaded := true }
    | .ok none =>
      match env.downloadTreesFrom with
      | .error e => (.error e, s)
      | .ok _ =>
        let s := { s with treesDownloaded := true }
        match env.downloadDirHashesFromCommit with
        | .error e => (.error e, s)
        | .ok _ => fetchTail env rb { s with dirHashesDownloaded := true }

/-! ## Merkle tree path lookup

Translated from
`core/v0_19_0/index/merkle_tree/node/merkle_tree_node_data.rs`.  A
loaded tree node carries its hash, its node type tag, its serialized
`data` (modelled as the already-deserialized payload: the `dir()` and
`file()` accessors deserialize on demand and fail exactly when the
payload does not match, which the payload inductive mirrors), and its
children. -/

/-- Node type tag (`MerkleTreeNodeType`). -/
inductive MerkleTreeNodeType where
  | commit
  | vnode
  | dir
  | file
  | fileChunk
  | schema
deriving DecidableEq, Repr

/-- Deserialized payload of the `data` bytes of a node; only the fields
the path lookup reads (the `name` of dir and file nodes) are carried. -/
inductive MerkleNodePayload where
  | commit
  | vnode
  | dir (name : String)
  | file (name : String)
  | fileChunk
  | schema
deriving DecidableEq, Repr

/-- Loaded merkle tree node (`MerkleTreeNodeData`, lines 12-19). -/
inductive MerkleTreeNodeData where
  | mk (hash : Nat) (dtype : MerkleTreeNodeType) (data : MerkleNodePayload)
      (children : List MerkleTreeNodeData)

/-- Hash of a node. -/
def MerkleTreeNodeData.hash : MerkleTreeNodeData → Nat
  | .mk h _ _ _ => h

/-- Type tag of a node. -/
def MerkleTreeNodeData.dtype : MerkleTreeNodeData → MerkleTreeNodeType
  | .mk _ d _ _ => d

/-- Payload of a node. -/
def MerkleTreeNodeData.data : MerkleTreeNodeData → MerkleNodePayload
  | .mk _ _ p _ => p

/-- Children of a node. -/
def MerkleTreeNodeData.children : MerkleTreeNodeData → List MerkleTreeNodeData
  | .mk _ _ _ cs => cs

/-- Model of the `dir()` accessor: deserialize the payload as a
`DirNode`, failing on any other payload. -/
def MerkleTreeNodeData.dirName (t : MerkleTreeNodeData) : Except String String :=
  match t.data with
  | .dir n => .ok n
  | _ => .error "Error deserializing dir node"

/-- Model of the `file()` accessor: deserialize the payload as a
`FileNode`, failing on any other payload. -/
def MerkleTreeNodeData.fileName (t : MerkleTreeNodeData) : Except String String :=
  match t.data with
  | .file n => .ok n
  | _ => .error "Error deserializing file node"

/-- Agreement of a type tag with a payload: the serialized `data` bytes
of a well-formed store deserialize as the node type they are tagged
with. -/
def payloadAgrees : MerkleTreeNodeType → MerkleNodePayload → Bool
  | .commit, .commit => true
  | .vnode, .vnode => true
  | .dir, .dir _ => true
  | .file, .file _ => true
  | .fileChunk, .fileChunk => true
  | .schema, .schema => true
  | _, _ => false

/-- Well-formedness of a loaded tree: every node payload agrees with
its type tag. -/
def wellFormed : MerkleTreeNodeData → Prop
  | .mk _ d p cs => payloadAgrees d p = true ∧ ∀ c ∈ cs.attach, wellFormed c.1
termination_by t => sizeOf t
decreasing_by
  simp_wf
  have hlt := List.sizeOf_lt_of_mem c.2
  omega

/-- Model of `Path::join` on a single component: joining the empty
string adds no component (Rust paths compare by components). -/
def pathJoin (t : OxPath) (n : String) : OxPath :=
  if n = "" then t else t ++ [n]

mutual

/-- Model of `get_by_path_helper` (merkle_tree_node_data.rs lines
161-217): prune when the traversed path is deeper than the query; a
file node answers when its joined path equals the query; a dir node
answers when the traversed path equals the query; commit, dir and vnode
nodes search their children, descending into dir children with the
traversed path extended by the child name. -/
def getByPathHelper (trav p : OxPath) : MerkleTreeNodeData → Except String (Option MerkleTreeNodeData)
  | .mk h dt payload cs =>
    if trav.length > p.length then .ok none
    else
      match dt, payload with
      | .file, .file name =>
        if pathJoin trav name = p then .ok (some (.mk h dt payload cs)) else .ok none
      | .file, _ => .error "Error deserializing file node"
      | .dir, _ =>
        if trav = p then .ok (some (.mk h dt payload cs))
        else searchChildren trav p cs
      | .commit, _ => searchChildren trav p cs
      | .vnode, _ => searchChildren trav p cs
      | _, _ => .ok none

/-- Child loop of `get_by_path_helper` (lines 200-213): first found
child wins; a dir child is entered with the traversed path extended by
its deserialized name. -/
def searchChildren (trav p : OxPath) : List MerkleTreeNodeData → Except String (Option MerkleTreeNodeData)
  | [] => .ok none
  | c :: rest =>
    match
      (match c.dtype, c.data with
       | .dir, .dir name => getByPathHelper (pathJoin trav name) p c
       | .dir, _ => .error "Error deserializing dir node"
       | _, _ => getByPathHelper trav p c) with
    | .error e => .error e
    | .ok (some n) => .ok (some n)
    | .ok none => searchChildren trav p rest

end

/-- Model of `get_by_path` (merkle_tree_node_data.rs lines 152-159):
the helper starting from the empty traversed path. -/
def get_by_path (t : MerkleTreeNodeData) (p : OxPath) :
    Except String (Option MerkleTreeNodeData) :=
  getByPathHelper [] p t

/-- Name a dir child contributes to the traversed path (its payload
name, with a junk default only reachable on ill-formed trees). -/
def MerkleTreeNodeData.dirNameD (t : MerkleTreeNodeData) : String :=
  match t.data with
  | .dir n => n
  | _ => ""

/-- Address a node itself can answer to: a file node lies at its joined
path, a dir node at the traversed path, other nodes at none. -/
def selfEntries (trav : OxPath) (t : MerkleTreeNodeData) :
    List (OxPath × MerkleTreeNodeData) :=
  match t.dtype, t.data with
  | .file, .file name => [(pathJoin trav name, t)]
  | .dir, _ => [(trav, t)]
  | _, _ => []

/-- Traversed path used when descending into a child: dir children
extend it by their name, other children leave it unchanged. -/
def nextTrav (trav : OxPath) (c : MerkleTreeNodeData) : OxPath :=
  if c.dtype = .dir then pathJoin trav c.dirNameD else trav

/-- All nodes the traversal can address, with the path accumulated on
the way; commit, dir and vnode nodes expose their children. -/
def nodesAt (trav : OxPath) : MerkleTreeNodeData → List (OxPath × MerkleTreeNodeData)
  | .mk h dt payload cs =>
    selfEntries trav (.mk h dt payload cs) ++
    (match dt with
     | .commit | .dir | .vnode =>
       (cs.attach.map (fun c => nodesAt (nextTrav trav c.1) c.1)).flatten
     | _ => [])
termination_by t => sizeOf t
decreasing_by
  all_goals
    simp_wf
    have hlt := List.sizeOf_lt_of_mem c.2
    omega

/-! ## Concrete example inputs used by counterexamples and witnesses -/

/-- Staged file `a/1.txt` with content hash 1. -/
def entryA : EntryMetaDataWithPath :=
  { path := ["a", "1.txt"], hash := 1, num_bytes := 1, data_type := .text }

/-- Staged file `a/2.txt` with content hash 3. -/
def entryB : EntryMetaDataWithPath :=
  { path := ["a", "2.txt"], hash := 3, num_bytes := 1, data_type := .text }

/-- Staged file `b/3.txt` with content hash 5. -/
def entryC : EntryMetaDataWithPath :=
  { path := ["b", "3.txt"], hash := 5, num_bytes := 1, data_type := .text }

/-- Staging map with one directory holding two entries. -/
def dirEntriesAB : List (OxPath × List EntryMetaDataWithPath) :=
  [(["a"], [entryA, entryB])]

/-- Staging map with two directories, in one iteration order. -/
def dirEntriesTwoDirs : List (OxPath × List EntryMetaDataWithPath) :=
  [(["a"], [entryA]), (["b"], [entryC])]

/-- The same staging map in the other iteration order. -/
def dirEntriesTwoDirsSwapped : List (OxPath × List EntryMetaDataWithPath) :=
  [(["b"], [entryC]), (["a"], [entryA])]

/-- Legacy child `x` with hash 1, for the migration bucketing. -/
def legacyChildX : TreeObjectChild := .file ["x"] 1

/-- Legacy child `y` with hash 3, for the migration bucketing. -/
def legacyChildY : TreeObjectChild := .file ["y"] 3

/-- Two distinct node-db entries used to instantiate the round-trip. -/
def c7entries : List (Nat × List Nat) := [(1, [10]), (2, [20, 30])]

/-- Two distinct node-db entries used for the list-order counterexample. -/
def c8entries : List (Nat × List Nat) := [(1, [10]), (2, [20, 30])]

/-- Fetch environment in which the blob pull fails and every other call
succeeds, used to instantiate the atomicity theorem. -/
def envPullFails : FetchEnv :=
  { getBranchByName := .ok (some { name := "main", commit_id := "abc" }),
    headCommitMaybe := .ok none,
    hasNode := .ok true,
    downloadTreesBetween := .ok (),
    downloadBaseHeadDirHashes := .ok (),
    downloadTreesFrom := .ok (),
    downloadDirHashesFromCommit := .ok (),
    listCommits := .ok ["abc"],
    collectMissingEntries := .ok ["f1"],
    pullEntries := .error "network",
    writeIsShallow := .ok (),
    markSynced := .ok (),
    setBranchCommitId := .ok () }

/-- Local repository state before the fetch, used by the witness. -/
def stateBeforeFetch : RepoState :=
  { branchRefs := [("main", "old")],
    treesDownloaded := false,
    dirHashesDownloaded := false,
    entriesPulled := false,
    isShallow := true,
    syncedCommits := [] }

/-- Induction principle for the nested tree type: a property holds of a
node as soon as it holds of all its children. -/
def MerkleTreeNodeData.inductionOn {P : MerkleTreeNodeData → Prop}
    (h : ∀ ha dt da cs, (∀ c ∈ cs, P c) → P (.mk ha dt da cs)) :
    (t : MerkleTreeNodeData) → P t
  | .mk ha dt da cs => h ha dt da cs (fun c hc => MerkleTreeNodeData.inductionOn h c)
termination_by t => sizeOf t
decreasing_by
  simp_wf
  have hlt := List.sizeOf_lt_of_mem hc
  omega

/-- Concrete loaded tree: a commit over a root dir with one vnode
holding the file `a.txt` and the subdirectory `sub`, which holds the
file `b.txt` under its own vnode. -/
def exampleTree : MerkleTreeNodeData :=
  .mk 100 .commit .commit
    [.mk 200 .dir (.dir "")
      [.mk 300 .vnode .vnode
        [.mk 400 .file (.file "a.txt") [],
         .mk 500 .dir (.dir "sub")
           [.mk 600 .vnode .vnode
             [.mk 700 .file (.file "b.txt") []]]]]]

/-- The sixteen lowercase hexadecimal digit characters. -/
def lowerHexChars : List Char :=
  (List.range 16).map hexDigitLower

/-- The sixteen uppercase hexadecimal digit characters. -/
def upperHexChars : List Char :=
  (List.range 16).map hexDigitUpper

/-! ## Theorems -/

theorem encodeLE_length (w : Nat) : ∀ n, (encodeLE w n).length = w := by
  induction w with
  | zero => intro n; rfl
  | succ w ih =>
    intro n
    simp [encodeLE, ih]

theorem encodeLE_lt (w n : Nat) : ∀ b ∈ encodeLE w n, b < 256 := by
  induction w generalizing n with
  | zero => intro b hb; simp [encodeLE] at hb
  | succ w ih =>
    intro b hb
    simp only [encodeLE, List.mem_cons] at hb
    rcases hb with h | h
    · omega
    · exact ih _ _ h

theorem decodeLE_encodeLE (w n : Nat) (h : n < 256 ^ w) :
    decodeLE (encodeLE w n) = n := by
  induction w generalizing n with
  | zero => simp [Nat.pow_zero] at h; simp [encodeLE, decodeLE, h]
  | succ w ih =>
    have hdiv : n / 256 < 256 ^ w := by
      rw [Nat.pow_succ] at h
      omega
    simp only [encodeLE, decodeLE, List.foldr_cons]
    have := ih (n / 256) hdiv
    simp only [decodeLE] at this
    rw [this]
    omega

theorem ceilLog2DivF_least (d : Nat) (hd : 0 < d) :
    ∀ fuel k, k ≤ fuel →
      k ≤ d * 2 ^ ceilLog2DivF fuel k d ∧
      ∀ j, k ≤ d * 2 ^ j → ceilLog2DivF fuel k d ≤ j := by
  intro fuel
  induction fuel with
  | zero =>
    intro k hk
    have hk0 : k = 0 := Nat.le_zero.mp hk
    subst hk0
    simp [ceilLog2DivF]
  | succ fuel ih =>
    intro k hk
    by_cases hkd : k ≤ d
    · simp only [ceilLog2DivF, if_pos hkd]
      constructor
      · simpa using hkd
      · intro j _; exact Nat.zero_le j
    · simp only [ceilLog2DivF, if_neg hkd]
      push_neg at hkd
      have hk2 : 2 ≤ k := by omega
      have hrec : (k + 1) / 2 ≤ fuel := by omega
      obtain ⟨hP, hmin⟩ := ih ((k + 1) / 2) hrec
      constructor
      · rw [Nat.pow_succ]
        have : d * (2 ^ ceilLog2DivF fuel ((k + 1) / 2) d * 2)
            = d * 2 ^ ceilLog2DivF fuel ((k + 1) / 2) d * 2 := by ring
        rw [this]
        omega
      · intro j hj
        match j with
        | 0 => simp at hj; omega
        | j + 1 =>
          have hj' : (k + 1) / 2 ≤ d * 2 ^ j := by
            rw [Nat.pow_succ] at hj
            have : d * (2 ^ j * 2) = d * 2 ^ j * 2 := by ring
            rw [this] at hj
            omega
          have := hmin j hj'
          omega

theorem numVNodesCommitWriter_eq_spec (k : Nat) :
    numVNodesCommitWriter k = specNumVNodes k := by
  obtain ⟨hP, hmin⟩ := ceilLog2DivF_least 10000 (by omega) k k (le_refl k)
  have hfind : ceilLog2DivF k k 10000 = Nat.find (existsPowBound k) := by
    apply Nat.le_antisymm
    · exact hmin _ (Nat.find_spec (existsPowBound k))
    · exact Nat.find_min' (existsPowBound k) hP
  unfold numVNodesCommitWriter specNumVNodes
  rw [hfind]
  have h1 : 1 ≤ 2 ^ Nat.find (existsPowBound k) := Nat.one_le_two_pow
  omega

theorem hexDigitsF_length_le (kk : Nat) :
    ∀ fuel n, n < 16 ^ kk → (hexDigitsF fuel n).length ≤ kk := by
  induction kk with
  | zero =>
    intro fuel n h
    simp [Nat.pow_zero] at h
    subst h
    cases fuel <;> simp [hexDigitsF]
  | succ kk ih =>
    intro fuel n h
    cases fuel with
    | zero => simp [hexDigitsF]
    | succ fuel =>
      by_cases hn : n = 0
      · simp [hexDigitsF, hn]
      · simp only [hexDigitsF, if_neg hn, List.length_cons]
        have hdiv : n / 16 < 16 ^ kk := by
          rw [Nat.pow_succ] at h
          omega
        have := ih fuel (n / 16) hdiv
        omega

theorem hexDigitsF_lt (fuel n : Nat) : ∀ b ∈ hexDigitsF fuel n, b < 16 := by
  induction fuel generalizing n with
  | zero => intro b hb; simp [hexDigitsF] at hb
  | succ fuel ih =>
    intro b hb
    by_cases hn : n = 0
    · simp [hexDigitsF, hn] at hb
    · simp only [hexDigitsF, if_neg hn, List.mem_cons] at hb
      rcases hb with h | h
      · omega
      · exact ih _ _ h

theorem hexDigitsF_ne_nil (fuel n : Nat) (hn : n ≠ 0) (hf : 0 < fuel) :
    hexDigitsF fuel n ≠ [] := by
  match fuel, hf with
  | fuel + 1, _ => simp [hexDigitsF, hn]

theorem hexDigitLower_mem (d : Nat) (h : d < 16) : hexDigitLower d ∈ lowerHexChars := by
  revert h
  revert d
  decide

theorem hexDigitUpper_mem (d : Nat) (h : d < 16) : hexDigitUpper d ∈ upperHexChars := by
  revert h
  revert d
  decide

theorem formatLowerHex_spec (bound : Nat) (n : Nat) (h : n < 16 ^ bound) :
    1 ≤ (formatLowerHex n).length ∧ (formatLowerHex n).length ≤ max bound 1 ∧
      ∀ c ∈ formatLowerHex n, c ∈ lowerHexChars := by
  unfold formatLowerHex
  by_cases hn : n = 0
  · subst hn; refine ⟨by decide, by simp, ?_⟩; decide
  · rw [if_neg hn]
    refine ⟨?_, ?_, ?_⟩
    · have := hexDigitsF_ne_nil n n hn (by omega)
      simp only [List.length_reverse, List.length_map]
      cases hh : hexDigitsF n n with
      | nil => exact absurd hh this
      | cons a l => simp
    · simp only [List.length_reverse, List.length_map]
      have := hexDigitsF_length_le bound n n h
      omega
    · intro c hc
      simp only [List.mem_reverse, List.mem_map] at hc
      obtain ⟨d, hd, rfl⟩ := hc
      exact hexDigitLower_mem d (hexDigitsF_lt n n d hd)

theorem formatUpperHex_spec (bound : Nat) (n : Nat) (h : n < 16 ^ bound) :
    1 ≤ (formatUpperHex n).length ∧ (formatUpperHex n).length ≤ max bound 1 ∧
      ∀ c ∈ formatUpperHex n, c ∈ upperHexChars := by
  unfold formatUpperHex
  by_cases hn : n = 0
  · subst hn; refine ⟨by decide, by simp, ?_⟩; decide
  · rw [if_neg hn]
    refine ⟨?_, ?_, ?_⟩
    · have := hexDigitsF_ne_nil n n hn (by omega)
      simp only [List.length_reverse, List.length_map]
      cases hh : hexDigitsF n n with
      | nil => exact absurd hh this
      | cons a l => simp
    · simp only [List.length_reverse, List.length_map]
      have := hexDigitsF_length_le bound n n h
      omega
    · intro c hc
      simp only [List.mem_reverse, List.mem_map] at hc
      obtain ⟨d, hd, rfl⟩ := hc
      exact hexDigitUpper_mem d (hexDigitsF_lt n n d hd)

theorem xxh3digest128_lt (stream : List Nat) : xxh3digest128 stream < 2 ^ 128 := by
  unfold xxh3digest128
  exact Nat.mod_lt _ (by norm_num)

theorem defaultHasherFinishU128_lt (v : Nat) : defaultHasherFinishU128 v < 2 ^ 64 := by
  unfold defaultHasherFinishU128
  exact Nat.mod_lt _ (by norm_num)

theorem specNumVNodes_30000 : specNumVNodes 30000 = 4 := by
  have hfind : Nat.find (existsPowBound 30000) = 2 := by
    rw [Nat.find_eq_iff]
    constructor
    · norm_num
    · intro m hm
      interval_cases m <;> norm_num
  unfold specNumVNodes
  rw [hfind]
  norm_num

/-- C3: the commit writer computes the vnode count
`N = max(1, 2 ^ ceil(log2(k / 10000)))` of the claim (with the exact
boundary values 10000 -> 1 and 10001 -> 2), but the migration computes
the plain ceiling division `ceil(k / 10000)`: at 30000 children the
migration produces 3 vnodes where the claim formula gives 4, so the
claim fails on the migration path (the comment above the migration code
still says `log2(N / 10000)`, and its worked examples are powers of
two, so the code contradicts its own documentation). -/
theorem c3_vnode_count_eval :
    (∀ k, numVNodesCommitWriter k = specNumVNodes k) ∧
    numVNodesCommitWriter 10000 = 1 ∧ numVNodesCommitWriter 10001 = 2 ∧
    numVNodesMigrate 10000 = 1 ∧ numVNodesMigrate 10001 = 2 ∧
    numVNodesMigrate 30000 = 3 ∧ specNumVNodes 30000 = 4 ∧
    numVNodesMigrate 30000 ≠ specNumVNodes 30000 := by
  refine ⟨numVNodesCommitWriter_eq_spec, by decide, by decide, by decide, by decide,
    by decide, specNumVNodes_30000, ?_⟩
  rw [specNumVNodes_30000]
  decide

/-- C9, counterexample: the rendered form of `hash_buffer` is never 32
characters long (it renders a 64-bit re-hash with the unpadded `:X`
formatter, so it has at most 16 characters); at the concrete buffer
`b"Hello World"` the claim that the rendered hash has exactly 32
lowercase hex digits fails. -/
theorem c9_hash_buffer_counterexample :
    (hash_buffer (strBytes "Hello World")).length ≠ 32 := by
  decide

/-- C9, amended: `hash_buffer_128bit` returns a 128-bit unsigned
integer, but the string `hash_buffer` renders the 64-bit
`DefaultHasher` re-hash of the xxh3 digest as unpadded UPPERCASE hex
with no prefix (1 to 16 characters), and commit ids are rendered with
the unpadded lowercase `:x` formatter (1 to 32 lowercase hex
characters, no prefix). -/
theorem c9_hash_rendering :
    (∀ buffer : List Nat, hash_buffer_128bit buffer < 2 ^ 128) ∧
    (∀ buffer : List Nat,
      1 ≤ (hash_buffer buffer).length ∧ (hash_buffer buffer).length ≤ 16 ∧
      ∀ c ∈ hash_buffer buffer, c ∈ upperHexChars) ∧
    (∀ n : Nat, n < 2 ^ 128 →
      1 ≤ (formatLowerHex n).length ∧ (formatLowerHex n).length ≤ 32 ∧
      ∀ c ∈ formatLowerHex n, c ∈ lowerHexChars) := by
  refine ⟨fun buffer => xxh3digest128_lt buffer, fun buffer => ?_, fun n hn => ?_⟩
  · have hlt : defaultHasherFinishU128 (xxh3digest128 buffer) < 16 ^ 16 := by
      have := defaultHasherFinishU128_lt (xxh3digest128 buffer)
      norm_num at this ⊢
      omega
    have hspec := formatUpperHex_spec 16 _ hlt
    unfold hash_buffer
    refine ⟨hspec.1, ?_, hspec.2.2⟩
    have := hspec.2.1
    simpa using this
  · have hlt : n < 16 ^ 32 := by norm_num at hn ⊢; omega
    have hspec := formatLowerHex_spec 32 n hlt
    refine ⟨hspec.1, ?_, hspec.2.2⟩
    have := hspec.2.1
    simpa using this

theorem insertSorted_perm (le : α → α → Bool) (x : α) (l : List α) :
    (insertSorted le x l).Perm (x :: l) := by
  induction l with
  | nil => simp [insertSorted]
  | cons y ys ih =>
    simp only [insertSorted]
    by_cases h : le x y
    · rw [if_pos h]
    · rw [if_neg h]
      exact (ih.cons y).trans (List.Perm.swap x y ys)

theorem insertionSort_perm (le : α → α → Bool) (l : List α) :
    (insertionSort le l).Perm l := by
  induction l with
  | nil => simp [insertionSort]
  | cons x xs ih =>
    simp only [insertionSort]
    exact (insertSorted_perm le x (insertionSort le xs)).trans (ih.cons x)

theorem insertSorted_pairwise (le : α → α → Bool)
    (htot : ∀ a b, le a b = true ∨ le b a = true)
    (htrans : ∀ a b c, le a b = true → le b c = true → le a c = true)
    (x : α) (l : List α) (hl : l.Pairwise (fun a b => le a b = true)) :
    (insertSorted le x l).Pairwise (fun a b => le a b = true) := by
  induction l with
  | nil => simp [insertSorted]
  | cons y ys ih =>
    rw [List.pairwise_cons] at hl
    obtain ⟨hy, hys⟩ := hl
    simp only [insertSorted]
    by_cases h : le x y
    · rw [if_pos h]
      rw [List.pairwise_cons]
      refine ⟨?_, ?_⟩
      · intro z hz
        rcases List.mem_cons.mp hz with rfl | hz
        · exact h
        · exact htrans x y z h (hy z hz)
      · rw [List.pairwise_cons]
        exact ⟨hy, hys⟩
    · rw [if_neg h]
      have hyx : le y x = true := by
        rcases htot x y with h1 | h1
        · exact absurd h1 h
        · exact h1
      rw [List.pairwise_cons]
      refine ⟨?_, ih hys⟩
      intro z hz
      have hz2 := (insertSorted_perm le x ys).mem_iff.mp hz
      rcases List.mem_cons.mp hz2 with rfl | hz3
      · exact hyx
      · exact hy z hz3

theorem insertionSort_pairwise (le : α → α → Bool)
    (htot : ∀ a b, le a b = true ∨ le b a = true)
    (htrans : ∀ a b c, le a b = true → le b c = true → le a c = true)
    (l : List α) :
    (insertionSort le l).Pairwise (fun a b => le a b = true) := by
  induction l with
  | nil => simp [insertionSort]
  | cons x xs ih =>
    simp only [insertionSort]
    exact insertSorted_pairwise le htot htrans x _ ih

theorem charListLt_irrefl : ∀ a : List Char, charListLt a a = false := by
  intro a
  induction a with
  | nil => rfl
  | cons c cs ih => simp [charListLt, lt_irrefl, ih]

theorem charListLt_trichotomy : ∀ a b : List Char,
    charListLt a b = true ∨ a = b ∨ charListLt b a = true := by
  intro a
  induction a with
  | nil =>
    intro b
    cases b with
    | nil => right; left; rfl
    | cons d ds => left; rfl
  | cons c cs ih =>
    intro b
    cases b with
    | nil => right; right; rfl
    | cons d ds =>
      rcases lt_trichotomy c d with h | h | h
      · left; simp [charListLt, h]
      · subst h
        rcases ih ds with h2 | h2 | h2
        · left; simp [charListLt, lt_irrefl, h2]
        · right; left; rw [h2]
        · right; right; simp [charListLt, lt_irrefl, h2]
      · right; right; simp [charListLt, h]

theorem charListLt_trans : ∀ a b c : List Char,
    charListLt a b = true → charListLt b c = true → charListLt a c = true := by
  intro a
  induction a with
  | nil =>
    intro b c hab hbc
    cases b with
    | nil => exact hbc
    | cons y bs =>
      cases c with
      | nil => simp [charListLt] at hbc
      | cons z cs => rfl
  | cons x as_ ih =>
    intro b c hab hbc
    cases b with
    | nil => simp [charListLt] at hab
    | cons y bs =>
      cases c with
      | nil => simp [charListLt] at hbc
      | cons z cs =>
        simp only [charListLt] at hab hbc ⊢
        by_cases hxy : x < y
        · by_cases hyz : y < z
          · simp [lt_trans hxy hyz]
          · simp only [if_neg hyz] at hbc
            by_cases hyz2 : y = z
            · subst hyz2; simp [hxy]
            · simp [hyz2] at hbc
        · simp only [if_neg hxy] at hab
          by_cases hxy2 : x = y
          · subst hxy2
            simp only [if_pos rfl] at hab
            by_cases hxz : x < z
            · simp [hxz]
            · simp only [if_neg hxz] at hbc ⊢
              by_cases hxz2 : x = z
              · subst hxz2
                simp only [if_pos rfl] at hbc ⊢
                exact ih bs cs hab hbc
              · simp [hxz2] at hbc
          · simp [hxy2] at hab

theorem stringDataInj (a b : String) (h : a.data = b.data) : a = b := by
  cases a with
  | mk da =>
    cases b with
    | mk db => exact congrArg String.mk h

theorem strLt_trichotomy (a b : String) :
    strLt a b = true ∨ a = b ∨ strLt b a = true := by
  rcases charListLt_trichotomy a.data b.data with h | h | h
  · left; exact h
  · right; left; exact stringDataInj a b h
  · right; right; exact h

theorem strLt_irrefl (a : String) : strLt a a = false :=
  charListLt_irrefl a.data

theorem strLt_trans (a b c : String) (h1 : strLt a b = true) (h2 : strLt b c = true) :
    strLt a c = true :=
  charListLt_trans a.data b.data c.data h1 h2

theorem pathLe_total : ∀ a b : OxPath, pathLe a b = true ∨ pathLe b a = true := by
  intro a
  induction a with
  | nil => intro b; left; cases b <;> simp [pathLe]
  | cons x as_ ih =>
    intro b
    cases b with
    | nil => right; simp [pathLe]
    | cons y bs =>
      rcases strLt_trichotomy x y with h | h | h
      · left; simp [pathLe, h]
      · subst h
        rcases ih bs with h2 | h2
        · left; simp [pathLe, h2, strLt_irrefl]
        · right; simp [pathLe, h2, strLt_irrefl]
      · right; simp [pathLe, h]

theorem pathLe_trans : ∀ a b c : OxPath,
    pathLe a b = true → pathLe b c = true → pathLe a c = true := by
  intro a
  induction a with
  | nil => intro b c _ _; simp [pathLe]
  | cons x as_ ih =>
    intro b c hab hbc
    cases b with
    | nil => simp [pathLe] at hab
    | cons y bs =>
      cases c with
      | nil => simp [pathLe] at hbc
      | cons z cs =>
        simp only [pathLe] at hab hbc ⊢
        by_cases hxy : strLt x y = true
        · by_cases hyz : strLt y z = true
          · simp [strLt_trans x y z hxy hyz]
          · rw [if_neg (by simp [hyz])] at hbc
            by_cases hyz2 : y = z
            · subst hyz2; simp [hxy]
            · rw [if_neg (by simp [hyz2])] at hbc
              simp at hbc
        · rw [if_neg (by simp [hxy])] at hab
          by_cases hxy2 : x = y
          · subst hxy2
            rw [if_pos (by simp)] at hab
            by_cases hxz : strLt x z = true
            · simp [hxz]
            · rw [if_neg (by simp [hxz])] at hbc ⊢
              by_cases hxz2 : x = z
              · subst hxz2
                rw [if_pos (by simp)] at hbc ⊢
                exact ih bs cs hab hbc
              · rw [if_neg (by simp [hxz2])] at hbc
                simp at hbc
          · rw [if_neg (by simp [hxy2])] at hab
            simp at hab

theorem entryLe_total (a b : EntryMetaDataWithPath) :
    entryLe a b = true ∨ entryLe b a = true :=
  pathLe_total a.path b.path

theorem entryLe_trans (a b c : EntryMetaDataWithPath)
    (h1 : entryLe a b = true) (h2 : entryLe b c = true) : entryLe a c = true :=
  pathLe_trans a.path b.path c.path h1 h2

/-- C1, counterexample: the commit id computed by the pipeline does not
depend on the message (nor on any other commit metadata): two commits of
the same staged entries with different messages and timestamps get the
same id, and at a concrete input the id differs from the value of the
spec formula `hash(parent_hashes_sorted || root_dir_hash || message ||
author || email || timestamp_le_bytes)`. -/
theorem c1_commit_hash_counterexample :
    (commitPipelineNode dirEntriesAB [7] "message one" "alice" "alice@x.com" 1700000000).id
      = (commitPipelineNode dirEntriesAB [7] "message two" "alice" "alice@x.com" 1700000001).id
    ∧ "message one" ≠ "message two"
    ∧ (commitPipelineNode dirEntriesAB [7] "message one" "alice" "alice@x.com" 1700000000).id
      ≠ specCommitHash [7]
          (aggregate_dir_node_hash (split_into_vnodes dirEntriesAB) [])
          "message one" "alice" "alice@x.com" 1700000000 := by
  set_option maxRecDepth 4000 in
  refine ⟨rfl, by decide, by decide⟩

/-- C1, amended: the commit id is `compute_commit_id` of the vnode
split of the staged entries alone — the xxh3-128 digest of the
concatenated 16-byte little-endian entry hashes over all directories
(in map iteration order) and their vnodes — and is therefore
independent of the parents, message, author, email and timestamp. -/
theorem c1_commit_hash_amended :
    (∀ dirEntries parents message author email timestamp,
      (commitPipelineNode dirEntries parents message author email timestamp).id
        = xxh3digest128 (commitIdStream (split_into_vnodes dirEntries)))
    ∧ (∀ dirEntries parents parents2 message message2 author author2 email email2
        timestamp timestamp2,
      (commitPipelineNode dirEntries parents message author email timestamp).id
        = (commitPipelineNode dirEntries parents2 message2 author2 email2 timestamp2).id) := by
  exact ⟨fun _ _ _ _ _ _ => rfl, fun _ _ _ _ _ _ _ _ _ _ _ => rfl⟩

/-- C2: the commit id and the root dir hash are not deterministic
functions of the staged entries: `compute_commit_id` and
`aggregate_dir_node` iterate a `HashMap` whose iteration order is
unspecified (and varies between runs), and the two iteration orders of
the same two-directory staging map already yield different commit ids
and different root dir hashes. -/
theorem c2_hash_nondeterminism :
    dirEntriesTwoDirsSwapped.Perm dirEntriesTwoDirs
    ∧ compute_commit_id (split_into_vnodes dirEntriesTwoDirs)
        ≠ compute_commit_id (split_into_vnodes dirEntriesTwoDirsSwapped)
    ∧ aggregate_dir_node_hash (split_into_vnodes dirEntriesTwoDirs) []
        ≠ aggregate_dir_node_hash (split_into_vnodes dirEntriesTwoDirsSwapped) [] := by
  refine ⟨?_, by decide, by decide⟩
  exact List.Perm.swap _ _ _

/-- C4, counterexample: the vnode id of the commit writer is computed
from the bucket in insertion order, before the entries are sorted by
path, and without the parent directory path: the two insertion orders
of the same two entries (which share the single bucket) produce
different vnode ids, and the id differs from the spec formula
`hash(parent_dir_path, child_hashes sorted by path)` at a concrete
input. -/
theorem c4_vnode_hash_counterexample :
    ([entryB, entryA]).Perm [entryA, entryB]
    ∧ (splitDirIntoVnodes [entryA, entryB]).map (fun v => v.id)
        ≠ (splitDirIntoVnodes [entryB, entryA]).map (fun v => v.id)
    ∧ (splitDirIntoVnodes [entryA, entryB]).map (fun v => v.id)
        ≠ [specVNodeHash ["a"] [entryA, entryB]] := by
  refine ⟨List.Perm.swap _ _ _, by decide, by decide⟩

/-- C4, amended: in the commit writer every produced vnode takes its id
as the xxh3-128 digest of the concatenated 16-byte little-endian hashes
of its bucket in insertion order (no parent path, no pre-sort), and its
entry list is the bucket sorted by path (sorting happens only after the
id is computed); in the migration every vnode hash is the xxh3-128
digest of the bytes `vnode`, the parent directory path, and the hex
hash strings of the bucket children in insertion order (again unsorted).
Consequently both are sensitive to the insertion order of a bucket, as
the two orders of one concrete bucket show. -/
theorem c4_vnode_hash_amended :
    (∀ children : List EntryMetaDataWithPath,
      splitDirIntoVnodes children
        = (bucketize (numVNodesCommitWriter children.length) children).map
            (fun bucket =>
              { id := xxh3digest128 (vnodeStream bucket),
                entries := insertionSort entryLe bucket }))
    ∧ (∀ children : List EntryMetaDataWithPath,
        ∀ v ∈ splitDirIntoVnodes children,
          ∃ bucket ∈ bucketize (numVNodesCommitWriter children.length) children,
            v.id = xxh3digest128 (vnodeStream bucket)
            ∧ v.entries.Perm bucket
            ∧ v.entries.Pairwise (fun a b => entryLe a b = true))
    ∧ (∀ dirPath children,
        migrateBucketHashes dirPath children
          = (migrateBuckets children).map
              (fun bucket => xxh3digest128 (migrateVnodeStream dirPath bucket)))
    ∧ (splitDirIntoVnodes [entryA, entryB]).map (fun v => v.id)
        ≠ (splitDirIntoVnodes [entryB, entryA]).map (fun v => v.id)
    ∧ migrateBucketHashes [] [legacyChildX, legacyChildY]
        ≠ migrateBucketHashes [] [legacyChildY, legacyChildX] := by
  refine ⟨fun _ => rfl, ?_, fun _ _ => rfl, by decide, by decide⟩
  intro children v hv
  unfold splitDirIntoVnodes at hv
  simp only [List.mem_map] at hv
  obtain ⟨bucket, hb, rfl⟩ := hv
  refine ⟨bucket, hb, rfl, insertionSort_perm entryLe bucket,
    insertionSort_pairwise entryLe entryLe_total entryLe_trans bucket⟩

/-- C4, witness for the amended theorem: the characterization applied
to the concrete one-directory bucket. -/
theorem c4_vnode_hash_amended_witness :
    ∃ bucket ∈ bucketize (numVNodesCommitWriter ([entryA, entryB]).length) [entryA, entryB],
      (splitDirIntoVnodes [entryA, entryB]).head!.id
          = xxh3digest128 (vnodeStream bucket)
        ∧ ((splitDirIntoVnodes [entryA, entryB]).head!.entries).Perm bucket
        ∧ ((splitDirIntoVnodes [entryA, entryB]).head!.entries).Pairwise
            (fun a b => entryLe a b = true) := by
  refine c4_vnode_hash_amended.2.1 [entryA, entryB] _ ?_
  decide

/-- C5, counterexample: committing with an empty staging area does not
fail at all — `command::commit` returns `Ok(None)` (and `OxenError` has
no `Staging` variant that it could return). -/
theorem c5_empty_commit_counterexample :
    command_commit (fun _ _ => .ok { id := "abc" }) StagedData.empty "message" = .ok none
    ∧ ¬ ∃ e, command_commit (fun _ _ => .ok { id := "abc" }) StagedData.empty "message"
        = .error e := by
  constructor
  · rfl
  · rintro ⟨e, he⟩
    simp [command_commit, StagedData.has_added_entries, StagedData.empty] at he

/-- C5, amended: for every repository whose staging area contains no
staged entries, `command::commit` returns `Ok(None)` without invoking
the commit writer, for every possible behaviour of the underlying
commit routine. -/
theorem c5_empty_commit_amended
    (p_commit : StagedData → String → Except OxenError Commit)
    (status : StagedData) (message : String)
    (hempty : status.has_added_entries = false) :
    command_commit p_commit status message = .ok none := by
  unfold command_commit
  rw [hempty]
  rfl

/-- C5, witness: the amended theorem applied to the empty staging area. -/
theorem c5_empty_commit_amended_witness :
    StagedData.empty.has_added_entries = false
    ∧ command_commit (fun _ _ => .ok { id := "w" }) StagedData.empty "m" = .ok none :=
  ⟨by decide, c5_empty_commit_amended _ StagedData.empty "m" (by decide)⟩

theorem readExactLE_append (w : Nat) (enc rest : List Nat) (hlen : enc.length = w) :
    readExactLE w (enc ++ rest) = some (decodeLE enc, rest) := by
  unfold readExactLE
  rw [if_pos (by simp [hlen])]
  subst hlen
  rw [List.take_left, List.drop_left]

theorem loadRecords_encode : ∀ (recs : List (Nat × Nat × Nat)) (tail : List Nat),
    (∀ r ∈ recs, r.1 < 2 ^ 128 ∧ r.2.1 < 2 ^ 64 ∧ r.2.2 < 2 ^ 64) →
    loadRecords recs.length (encodeRecords recs ++ tail) = some recs := by
  intro recs
  induction recs with
  | nil => intro tail _; rfl
  | cons r rs ih =>
    intro tail hb
    obtain ⟨h1, h2, h3⟩ := hb r (List.mem_cons_self r rs)
    have henc : encodeRecords (r :: rs) ++ tail
        = u128le r.1 ++ (u64le r.2.1 ++ (u64le r.2.2 ++ (encodeRecords rs ++ tail))) := by
      simp [encodeRecords, encodeRecord, List.flatten_cons, List.append_assoc]
    have hd1 : decodeLE (u128le r.1) = r.1 :=
      decodeLE_encodeLE 16 r.1 (by norm_num at h1 ⊢; omega)
    have hd2 : decodeLE (u64le r.2.1) = r.2.1 :=
      decodeLE_encodeLE 8 r.2.1 (by norm_num at h2 ⊢; omega)
    have hd3 : decodeLE (u64le r.2.2) = r.2.2 :=
      decodeLE_encodeLE 8 r.2.2 (by norm_num at h3 ⊢; omega)
    have hr1 : readExactLE 16 (u128le r.1 ++ (u64le r.2.1 ++ (u64le r.2.2 ++ (encodeRecords rs ++ tail))))
        = some (r.1, u64le r.2.1 ++ (u64le r.2.2 ++ (encodeRecords rs ++ tail))) := by
      rw [readExactLE_append 16 (u128le r.1) _ (encodeLE_length 16 r.1), hd1]
    have hr2 : readExactLE 8 (u64le r.2.1 ++ (u64le r.2.2 ++ (encodeRecords rs ++ tail)))
        = some (r.2.1, u64le r.2.2 ++ (encodeRecords rs ++ tail)) := by
      rw [readExactLE_append 8 (u64le r.2.1) _ (encodeLE_length 8 r.2.1), hd2]
    have hr3 : readExactLE 8 (u64le r.2.2 ++ (encodeRecords rs ++ tail))
        = some (r.2.2, encodeRecords rs ++ tail) := by
      rw [readExactLE_append 8 (u64le r.2.2) _ (encodeLE_length 8 r.2.2), hd3]
    simp [loadRecords, henc, hr1, hr2, hr3,
      ih tail (fun x hx => hb x (List.mem_cons_of_mem r hx))]

theorem writeEntries_ok : ∀ (entries : List (Nat × List Nat)) (w : NodeDBWriter),
    (w.size ≠ 0 ∨ entries = []) →
    NodeDBWriter.writeEntries w entries = .ok
      { size := w.size,
        dataOffset := w.dataOffset + (entries.map (fun p => p.2.length)).sum,
        lookupFile := w.lookupFile ++ encodeRecords (mkRecords w.dataOffset entries),
        dataFile := w.dataFile ++ (entries.map Prod.snd).flatten } := by
  intro entries
  induction entries with
  | nil =>
    intro w _
    simp only [NodeDBWriter.writeEntries, List.foldlM_nil, mkRecords, encodeRecords,
      List.map_nil, List.flatten_nil, List.sum_nil, List.append_nil, Nat.add_zero]
    rfl
  | cons p es ih =>
    intro w hw
    have hsz : w.size ≠ 0 := by
      rcases hw with h | h
      · exact h
      · exact absurd h (List.cons_ne_nil p es)
    obtain ⟨h, b⟩ := p
    have hstep : NodeDBWriter.write_one w h b = .ok
        { size := w.size,
          dataOffset := w.dataOffset + b.length,
          lookupFile := w.lookupFile ++ u128le h ++ u64le w.dataOffset ++ u64le b.length,
          dataFile := w.dataFile ++ b } := by
      rw [NodeDBWriter.write_one, if_neg hsz]
    have hrec := ih (NodeDBWriter.mk w.size (w.dataOffset + b.length)
      (w.lookupFile ++ u128le h ++ u64le w.dataOffset ++ u64le b.length)
      (w.dataFile ++ b)) (Or.inl hsz)
    simp only [NodeDBWriter.writeEntries] at hrec ⊢
    rw [List.foldlM_cons, hstep]
    show List.foldlM _ _ es = _
    rw [hrec]
    simp only [mkRecords, encodeRecords, List.map_cons, List.flatten_cons, encodeRecord,
      List.sum_cons, Except.ok.injEq, NodeDBWriter.mk.injEq]
    refine ⟨trivial, by omega, ?_, by simp [List.append_assoc]⟩
    simp [encodeRecords, List.append_assoc]

theorem mkRecords_length : ∀ (es : List (Nat × List Nat)) (d : Nat),
    (mkRecords d es).length = es.length := by
  intro es
  induction es with
  | nil => intro d; rfl
  | cons p es ih =>
    intro d
    obtain ⟨h, b⟩ := p
    simp [mkRecords, ih]

theorem mkRecords_mem : ∀ (es : List (Nat × List Nat)) (d : Nat)
    (r : Nat × Nat × Nat), r ∈ mkRecords d es →
    ∃ h b, (h, b) ∈ es ∧ r.1 = h ∧ r.2.2 = b.length ∧ d ≤ r.2.1 ∧
      r.2.1 + b.length ≤ d + (es.map (fun p => p.2.length)).sum := by
  intro es
  induction es with
  | nil => intro d r hr; simp [mkRecords] at hr
  | cons p es ih =>
    intro d r hr
    obtain ⟨h, b⟩ := p
    simp only [mkRecords, List.mem_cons] at hr
    rcases hr with rfl | hr
    · refine ⟨h, b, List.mem_cons_self _ _, rfl, rfl, le_refl d, ?_⟩
      simp only [List.map_cons, List.sum_cons]
      omega
    · obtain ⟨h2, b2, hmem, hfst, hlen, hd, hbound⟩ := ih (d + b.length) r hr
      refine ⟨h2, b2, List.mem_cons_of_mem _ hmem, hfst, hlen, by omega, ?_⟩
      simp only [List.map_cons, List.sum_cons]
      omega

theorem nodeDBGet_mkRecords : ∀ (es : List (Nat × List Nat)) (d : Nat) (D : List Nat),
    D.length = d → (es.map Prod.fst).Nodup →
    ∀ h b, (h, b) ∈ es →
      nodeDBGet (mkRecords d es) (D ++ (es.map Prod.snd).flatten) h = .ok b := by
  intro es
  induction es with
  | nil => intro d D _ _ h b hmem; simp at hmem
  | cons p es ih =>
    intro d D hD hnodup h b hmem
    obtain ⟨h0, b0⟩ := p
    simp only [List.map_cons, List.nodup_cons] at hnodup
    obtain ⟨hnotin, hnodup2⟩ := hnodup
    simp only [List.map_cons, List.flatten_cons] at *
    rcases List.mem_cons.mp hmem with heq | hmem2
    · rw [Prod.mk.injEq] at heq
      obtain ⟨rfl, rfl⟩ := heq
      unfold nodeDBGet
      rw [show mkRecords d ((h, b) :: es) = (h, d, b.length) :: mkRecords (d + b.length) es
        from rfl]
      rw [List.find?_cons_of_pos _ (by simp)]
      have hbound : d + b.length ≤ (D ++ (b ++ (es.map Prod.snd).flatten)).length := by
        simp only [List.length_append]
        omega
      simp only [if_pos hbound, sliceRecord]
      rw [← hD, List.drop_left, List.take_left]
    · have hne : h ≠ h0 := by
        intro hcontra
        subst hcontra
        exact hnotin (List.mem_map.mpr ⟨(h, b), hmem2, rfl⟩)
      unfold nodeDBGet
      rw [show mkRecords d ((h0, b0) :: es) = (h0, d, b0.length) :: mkRecords (d + b0.length) es
        from rfl]
      rw [List.find?_cons_of_neg _ (by
        simp only [beq_iff_eq]
        exact fun hcontra => hne hcontra.symm)]
      have hstep := ih (d + b0.length) (D ++ b0) (by simp [hD]) hnodup2 h b hmem2
      unfold nodeDBGet at hstep
      rw [List.append_assoc] at hstep
      exact hstep

theorem nodeDBList_ok : ∀ (order : List (Nat × Nat × Nat)) (dataFile : List Nat),
    (∀ r ∈ order, r.2.1 + r.2.2 ≤ dataFile.length) →
    nodeDBList order dataFile = .ok (order.map (sliceRecord dataFile)) := by
  intro order
  induction order with
  | nil => intro dataFile _; rfl
  | cons r rs ih =>
    intro dataFile hok
    simp only [nodeDBList, List.mapM_cons]
    rw [if_pos (hok r (List.mem_cons_self r rs))]
    have := ih dataFile (fun x hx => hok x (List.mem_cons_of_mem r hx))
    simp only [nodeDBList] at this
    rw [this]
    rfl

theorem mkRecords_slices : ∀ (es : List (Nat × List Nat)) (d : Nat) (D : List Nat),
    D.length = d →
    (mkRecords d es).map (sliceRecord (D ++ (es.map Prod.snd).flatten))
      = es.map Prod.snd := by
  intro es
  induction es with
  | nil => intro d D _; rfl
  | cons p es ih =>
    intro d D hD
    obtain ⟨h, b⟩ := p
    simp only [mkRecords, List.map_cons, List.flatten_cons]
    congr 1
    · unfold sliceRecord
      simp only
      rw [← hD, List.drop_left, List.take_left]
    · have hrec := ih (d + b.length) (D ++ b) (by simp [hD])
      rw [List.append_assoc] at hrec
      exact hrec

/-- C7: writing a node db and reopening it round-trips, and the lookup
file is exactly a little-endian `u64` count followed by `count` records
of `(child_hash: u128, offset: u64, length: u64)`, all little-endian:
for distinct hashes, after `open`, `write_size(n)`, `n` `write_one`
calls and reopening, the parsed lookup has `size() = n` and `get`
returns the written bytes of every entry. -/
theorem c7_nodedb_roundtrip (entries : List (Nat × List Nat))
    (hkeys : (entries.map Prod.fst).Nodup)
    (hhash : ∀ p ∈ entries, p.1 < 2 ^ 128)
    (hn : entries.length < 2 ^ 64)
    (hdata : (entries.map (fun p => p.2.length)).sum < 2 ^ 64) :
    ∃ w : NodeDBWriter,
      Except.bind (NodeDBWriter.openWrite.write_size entries.length)
          (fun w0 => w0.writeEntries entries) = .ok w
      ∧ w.lookupFile = u64le entries.length ++ encodeRecords (mkRecords 0 entries)
      ∧ loadLookup w.lookupFile = some (entries.length, mkRecords 0 entries)
      ∧ (mkRecords 0 entries).length = entries.length
      ∧ (∀ p ∈ entries, nodeDBGet (mkRecords 0 entries) w.dataFile p.1 = .ok p.2) := by
  have hws : NodeDBWriter.openWrite.write_size entries.length
      = .ok (NodeDBWriter.mk entries.length 0 (u64le entries.length) []) := by
    unfold NodeDBWriter.openWrite NodeDBWriter.write_size
    simp
  have hcond : (NodeDBWriter.mk entries.length 0 (u64le entries.length) []).size ≠ 0
      ∨ entries = [] := by
    cases entries with
    | nil => exact Or.inr rfl
    | cons p es => left; simp
  have hwe := writeEntries_ok entries (NodeDBWriter.mk entries.length 0
    (u64le entries.length) []) hcond
  simp only [Nat.zero_add, List.nil_append] at hwe
  have hload : loadLookup (u64le entries.length ++ encodeRecords (mkRecords 0 entries))
      = some (entries.length, mkRecords 0 entries) := by
    have hr : readExactLE 8 (u64le entries.length ++ encodeRecords (mkRecords 0 entries))
        = some (entries.length, encodeRecords (mkRecords 0 entries)) := by
      rw [readExactLE_append 8 (u64le entries.length) _ (encodeLE_length 8 _)]
      rw [show decodeLE (u64le entries.length) = entries.length from
        decodeLE_encodeLE 8 entries.length (by norm_num at hn ⊢; omega)]
    have hbounds : ∀ r ∈ mkRecords 0 entries,
        r.1 < 2 ^ 128 ∧ r.2.1 < 2 ^ 64 ∧ r.2.2 < 2 ^ 64 := by
      intro r hr2
      obtain ⟨h, b, hmem, hfst, hlen, _, hbound⟩ := mkRecords_mem entries 0 r hr2
      refine ⟨by rw [hfst]; exact hhash (h, b) hmem, by omega, by omega⟩
    have hrecs := loadRecords_encode (mkRecords 0 entries) [] hbounds
    rw [List.append_nil, mkRecords_length entries 0] at hrecs
    unfold loadLookup
    rw [hr]
    simp [hrecs]
  refine ⟨NodeDBWriter.mk entries.length ((entries.map (fun p => p.2.length)).sum)
    (u64le entries.length ++ encodeRecords (mkRecords 0 entries))
    ((entries.map Prod.snd).flatten), ?_, rfl, hload, mkRecords_length entries 0, ?_⟩
  · rw [hws]
    show NodeDBWriter.writeEntries _ entries = _
    rw [hwe]
  · intro p hp
    have := nodeDBGet_mkRecords entries 0 [] rfl hkeys p.1 p.2 (by simpa using hp)
    simpa using this

/-- C7, witness: the round-trip applied to two concrete entries. -/
theorem c7_nodedb_roundtrip_witness :
    ∃ w : NodeDBWriter,
      Except.bind (NodeDBWriter.openWrite.write_size c7entries.length)
          (fun w0 => w0.writeEntries c7entries) = .ok w
      ∧ w.lookupFile = u64le c7entries.length ++ encodeRecords (mkRecords 0 c7entries)
      ∧ loadLookup w.lookupFile = some (c7entries.length, mkRecords 0 c7entries)
      ∧ (mkRecords 0 c7entries).length = c7entries.length
      ∧ (∀ p ∈ c7entries, nodeDBGet (mkRecords 0 c7entries) w.dataFile p.1 = .ok p.2) :=
  c7_nodedb_roundtrip c7entries (by decide) (by decide) (by decide) (by decide)

/-- C8, counterexample: `list()` iterates the in-memory offsets
`HashMap`, whose iteration order is unspecified, and returns only the
deserialized values: for the reversed iteration order of two written
entries the returned values are not in insertion order. -/
theorem c8_list_insertion_order_counterexample :
    ((mkRecords 0 c8entries).reverse).Perm (mkRecords 0 c8entries)
    ∧ nodeDBList ((mkRecords 0 c8entries).reverse) ((c8entries.map Prod.snd).flatten)
        = .ok [[20, 30], [10]]
    ∧ [[20, 30], [10]] ≠ c8entries.map Prod.snd := by
  refine ⟨List.reverse_perm _, by rfl, by decide⟩

/-- C8, amended: on a reopened database, `list()` returns the
deserialized values (not `(hash, bytes)` pairs) of all written entries
in the iteration order of the lookup map — an unspecified permutation
of insertion order — so the result is always a permutation of the
written values. -/
theorem c8_list_amended (entries : List (Nat × List Nat))
    (order : List (Nat × Nat × Nat))
    (hperm : order.Perm (mkRecords 0 entries)) :
    ∃ vals, nodeDBList order ((entries.map Prod.snd).flatten) = .ok vals
      ∧ vals.Perm (entries.map Prod.snd) := by
  have hbound : ∀ r ∈ order, r.2.1 + r.2.2 ≤ ((entries.map Prod.snd).flatten).length := by
    intro r hr
    have hr2 : r ∈ mkRecords 0 entries := hperm.mem_iff.mp hr
    obtain ⟨h, b, hmem, _, hlen, _, hb⟩ := mkRecords_mem entries 0 r hr2
    have hflat : ((entries.map Prod.snd).flatten).length
        = (entries.map (fun p => p.2.length)).sum := by
      rw [List.length_flatten, List.map_map]
      rfl
    omega
  refine ⟨order.map (sliceRecord ((entries.map Prod.snd).flatten)),
    nodeDBList_ok order _ hbound, ?_⟩
  have hmap := hperm.map (sliceRecord ((entries.map Prod.snd).flatten))
  have hslices := mkRecords_slices entries 0 [] rfl
  rw [List.nil_append] at hslices
  rw [hslices] at hmap
  exact hmap

/-- C8, witness for the amended theorem: the identity iteration order on
two concrete entries. -/
theorem c8_list_amended_witness :
    ∃ vals, nodeDBList (mkRecords 0 c8entries) ((c8entries.map Prod.snd).flatten) = .ok vals
      ∧ vals.Perm (c8entries.map Prod.snd) :=
  c8_list_amended c8entries (mkRecords 0 c8entries) (List.Perm.refl _)

theorem fetchTail_spec (env : FetchEnv) (rb : RemoteBranchInfo) (s : RepoState) :
    (fetchTail env rb s).2.treesDownloaded = s.treesDownloaded
    ∧ (fetchTail env rb s).2.dirHashesDownloaded = s.dirHashesDownloaded
    ∧ (∀ e, (fetchTail env rb s).1 = .error e →
        (fetchTail env rb s).2.branchRefs = s.branchRefs)
    ∧ ((fetchTail env rb s).1 = .ok () →
        (fetchTail env rb s).2.branchRefs = setBranch s.branchRefs rb.name rb.commit_id
        ∧ (fetchTail env rb s).2.entriesPulled = true) := by
  unfold fetchTail
  rcases env.listCommits with e | commits
  · simp
  · rcases env.collectMissingEntries with e | m
    · simp
    · rcases env.pullEntries with e | u
      · simp
      · rcases env.writeIsShallow with e | u2
        · simp
        · rcases env.markSynced with e | u3
          · simp
          · rcases env.setBranchCommitId with e | u4
            · simp
            · simp

/-- C6: in `fetch_remote_branch` the local branch ref is written last:
whenever the function returns an error the branch refs are unchanged
(orphan downloaded nodes are the only residue), and whenever it
succeeds the branch ref is set to the remote head and either the local
head already equalled the remote head (nothing was required) or the
node trees, dir hashes and missing entries had all been downloaded
first. -/
theorem c6_fetch_ref_atomicity (env : FetchEnv) (s : RepoState) :
    (∀ e, (fetch_remote_branch env s).1 = .error e →
        (fetch_remote_branch env s).2.branchRefs = s.branchRefs)
    ∧ ((fetch_remote_branch env s).1 = .ok () →
        ∃ rb : RemoteBranchInfo, env.getBranchByName = .ok (some rb)
          ∧ (fetch_remote_branch env s).2.branchRefs
              = setBranch s.branchRefs rb.name rb.commit_id
          ∧ (env.headCommitMaybe = .ok (some rb.commit_id)
             ∨ ((fetch_remote_branch env s).2.treesDownloaded = true
                ∧ (fetch_remote_branch env s).2.dirHashesDownloaded = true
                ∧ (fetch_remote_branch env s).2.entriesPulled = true))) := by
  unfold fetch_remote_branch
  rcases hbr : env.getBranchByName with e | obr
  · simp
  rcases obr with _ | rb
  · simp
  dsimp only
  rcases hhead : env.headCommitMaybe with e | ohead
  · simp
  rcases ohead with _ | headId
  · dsimp only
    rcases env.downloadTreesFrom with e | u
    · simp
    dsimp only
    rcases env.downloadDirHashesFromCommit with e | u2
    · simp
    dsimp only
    have ht := fetchTail_spec env rb
      { s with treesDownloaded := true, dirHashesDownloaded := true }
    constructor
    · intro e he
      exact (ht.2.2.1 e he).trans rfl
    · intro hok
      refine ⟨rb, rfl, ((ht.2.2.2 hok).1).trans rfl, Or.inr ?_⟩
      exact ⟨by rw [ht.1], by rw [ht.2.1], (ht.2.2.2 hok).2⟩
  dsimp only
  by_cases hup : headId = rb.commit_id
  · rw [if_pos hup]
    rcases env.setBranchCommitId with e | u
    · simp
    subst hup
    simp [hhead]
  rw [if_neg hup]
  rcases env.hasNode with e | bnode
  · simp
  rcases bnode with _ | _
  · dsimp only
    rcases env.downloadTreesFrom with e | u
    · simp
    dsimp only
    rcases env.downloadDirHashesFromCommit with e | u2
    · simp
    dsimp only
    have ht := fetchTail_spec env rb
      { s with treesDownloaded := true, dirHashesDownloaded := true }
    constructor
    · intro e he
      exact (ht.2.2.1 e he).trans rfl
    · intro hok
      refine ⟨rb, rfl, ((ht.2.2.2 hok).1).trans rfl, Or.inr ?_⟩
      exact ⟨by rw [ht.1], by rw [ht.2.1], (ht.2.2.2 hok).2⟩
  · dsimp only
    rcases env.downloadTreesBetween with e | u
    · simp
    dsimp only
    rcases env.downloadBaseHeadDirHashes with e | u2
    · simp
    dsimp only
    have ht := fetchTail_spec env rb
      { s with treesDownloaded := true, dirHashesDownloaded := true }
    constructor
    · intro e he
      exact (ht.2.2.1 e he).trans rfl
    · intro hok
      refine ⟨rb, rfl, ((ht.2.2.2 hok).1).trans rfl, Or.inr ?_⟩
      exact ⟨by rw [ht.1], by rw [ht.2.1], (ht.2.2.2 hok).2⟩

/-- C6, witness: in the environment where the blob pull fails, the
fetch returns that error and the branch refs are untouched. -/
theorem c6_fetch_ref_atomicity_witness :
    (fetch_remote_branch envPullFails stateBeforeFetch).1 = .error "network"
    ∧ (fetch_remote_branch envPullFails stateBeforeFetch).2.branchRefs
        = stateBeforeFetch.branchRefs :=
  ⟨rfl, (c6_fetch_ref_atomicity envPullFails stateBeforeFetch).1 "network" rfl⟩

theorem wellFormed_mk (ha : Nat) (dt : MerkleTreeNodeType) (da : MerkleNodePayload)
    (cs : List MerkleTreeNodeData) :
    wellFormed (.mk ha dt da cs)
      ↔ payloadAgrees dt da = true ∧ ∀ c ∈ cs, wellFormed c := by
  rw [wellFormed]
  constructor
  · rintro ⟨h1, h2⟩
    exact ⟨h1, fun c hc => h2 ⟨c, hc⟩ (List.mem_attach cs ⟨c, hc⟩)⟩
  · rintro ⟨h1, h2⟩
    exact ⟨h1, fun c _ => h2 c.1 c.2⟩

theorem pathJoin_length (t : OxPath) (n : String) : t.length ≤ (pathJoin t n).length := by
  unfold pathJoin
  split
  · exact le_refl _
  · simp

theorem nextTrav_length (trav : OxPath) (c : MerkleTreeNodeData) :
    trav.length ≤ (nextTrav trav c).length := by
  unfold nextTrav
  split
  · exact pathJoin_length trav c.dirNameD
  · exact le_refl _

theorem nodesAt_eq (trav : OxPath) (ha : Nat) (dt : MerkleTreeNodeType)
    (da : MerkleNodePayload) (cs : List MerkleTreeNodeData) :
    nodesAt trav (.mk ha dt da cs)
      = selfEntries trav (.mk ha dt da cs)
        ++ (match dt with
            | .commit | .dir | .vnode =>
              (cs.map (fun c => nodesAt (nextTrav trav c) c)).flatten
            | _ => []) := by
  cases dt <;> (rw [nodesAt]; simp [List.attach_map_coe]) <;>
    (intro h2; exact MerkleTreeNodeType.noConfusion h2)

theorem selfEntries_mem (trav p : OxPath) (n t : MerkleTreeNodeData)
    (h : (p, n) ∈ selfEntries trav t) :
    n = t ∧ ((t.dtype = .file ∧ ∃ name, t.data = .file name ∧ p = pathJoin trav name)
             ∨ (t.dtype = .dir ∧ p = trav)) := by
  unfold selfEntries at h
  split at h
  · next nm hdt hda =>
    simp only [List.mem_singleton, Prod.mk.injEq] at h
    exact ⟨h.2, Or.inl ⟨hdt, nm, hda, h.1⟩⟩
  · next hdt =>
    simp only [List.mem_singleton, Prod.mk.injEq] at h
    exact ⟨h.2, Or.inr ⟨hdt, h.1⟩⟩
  · simp at h

theorem nodesAt_length (t : MerkleTreeNodeData) :
    ∀ trav p n, (p, n) ∈ nodesAt trav t → trav.length ≤ p.length := by
  induction t using MerkleTreeNodeData.inductionOn with
  | _ ha dt da cs ih =>
    intro trav p n hmem
    rw [nodesAt_eq] at hmem
    rcases List.mem_append.mp hmem with hself | hrec
    · rcases (selfEntries_mem trav p n _ hself).2 with ⟨_, name, _, rfl⟩ | ⟨_, rfl⟩
      · exact pathJoin_length trav name
      · exact le_refl _
    · have hrec2 : ∃ c ∈ cs, (p, n) ∈ nodesAt (nextTrav trav c) c := by
        cases dt <;> simp only [List.mem_flatten, List.mem_map] at hrec <;>
          first
            | (obtain ⟨l, ⟨c, hc, rfl⟩, hl⟩ := hrec; exact ⟨c, hc, hl⟩)
            | simp at hrec
      obtain ⟨c, hc, hl⟩ := hrec2
      exact le_trans (nextTrav_length trav c) (ih c hc (nextTrav trav c) p n hl)

theorem searchChildren_sound (p : OxPath) :
    ∀ (cs : List MerkleTreeNodeData),
      (∀ c ∈ cs, ∀ trav2 n, getByPathHelper trav2 p c = .ok (some n) →
        (p, n) ∈ nodesAt trav2 c) →
      ∀ trav n, searchChildren trav p cs = .ok (some n) →
        ∃ c ∈ cs, (p, n) ∈ nodesAt (nextTrav trav c) c := by
  intro cs
  induction cs with
  | nil =>
    intro _ trav n h
    rw [searchChildren] at h
    simp at h
  | cons c rest ih =>
    intro hpt trav n h
    rw [searchChildren] at h
    rcases hstep : (match c.dtype, c.data with
        | .dir, .dir name => getByPathHelper (pathJoin trav name) p c
        | .dir, _ => (Except.error "Error deserializing dir node" :
            Except String (Option MerkleTreeNodeData))
        | _, _ => getByPathHelper trav p c) with e | r
    · rw [hstep] at h
      simp at h
    · rw [hstep] at h
      rcases r with _ | m
      · dsimp only at h
        obtain ⟨c2, hc2, hm⟩ := ih (fun c2 hc2 => hpt c2 (List.mem_cons_of_mem c hc2)) trav n h
        exact ⟨c2, List.mem_cons_of_mem c hc2, hm⟩
      · have hmn : m = n := by simpa using h
        subst hmn
        rcases c with ⟨ch, cdt, cda, ccs⟩
        cases cdt with
        | dir =>
          cases cda with
          | dir name =>
            dsimp only [MerkleTreeNodeData.dtype, MerkleTreeNodeData.data] at hstep
            refine ⟨_, List.mem_cons_self _ _, ?_⟩
            have hnext : nextTrav trav (MerkleTreeNodeData.mk ch .dir (.dir name) ccs)
                = pathJoin trav name := by
              simp [nextTrav, MerkleTreeNodeData.dtype, MerkleTreeNodeData.dirNameD,
                MerkleTreeNodeData.data]
            rw [hnext]
            exact hpt _ (List.mem_cons_self _ _) (pathJoin trav name) m hstep
          | commit =>
            dsimp only [MerkleTreeNodeData.dtype, MerkleTreeNodeData.data] at hstep
            simp at hstep
          | vnode =>
            dsimp only [MerkleTreeNodeData.dtype, MerkleTreeNodeData.data] at hstep
            simp at hstep
          | file name =>
            dsimp only [MerkleTreeNodeData.dtype, MerkleTreeNodeData.data] at hstep
            simp at hstep
          | fileChunk =>
            dsimp only [MerkleTreeNodeData.dtype, MerkleTreeNodeData.data] at hstep
            simp at hstep
          | schema =>
            dsimp only [MerkleTreeNodeData.dtype, MerkleTreeNodeData.data] at hstep
            simp at hstep
        | commit =>
          dsimp only [MerkleTreeNodeData.dtype, MerkleTreeNodeData.data] at hstep
          refine ⟨_, List.mem_cons_self _ _, ?_⟩
          have hnext : nextTrav trav (MerkleTreeNodeData.mk ch .commit cda ccs) = trav := by
            simp [nextTrav, MerkleTreeNodeData.dtype]
          rw [hnext]
          exact hpt _ (List.mem_cons_self _ _) trav m hstep
        | vnode =>
          dsimp only [MerkleTreeNodeData.dtype, MerkleTreeNodeData.data] at hstep
          refine ⟨_, List.mem_cons_self _ _, ?_⟩
          have hnext : nextTrav trav (MerkleTreeNodeData.mk ch .vnode cda ccs) = trav := by
            simp [nextTrav, MerkleTreeNodeData.dtype]
          rw [hnext]
          exact hpt _ (List.mem_cons_self _ _) trav m hstep
        | file =>
          dsimp only [MerkleTreeNodeData.dtype, MerkleTreeNodeData.data] at hstep
          refine ⟨_, List.mem_cons_self _ _, ?_⟩
          have hnext : nextTrav trav (MerkleTreeNodeData.mk ch .file cda ccs) = trav := by
            simp [nextTrav, MerkleTreeNodeData.dtype]
          rw [hnext]
          exact hpt _ (List.mem_cons_self _ _) trav m hstep
        | fileChunk =>
          dsimp only [MerkleTreeNodeData.dtype, MerkleTreeNodeData.data] at hstep
          refine ⟨_, List.mem_cons_self _ _, ?_⟩
          have hnext : nextTrav trav (MerkleTreeNodeData.mk ch .fileChunk cda ccs) = trav := by
            simp [nextTrav, MerkleTreeNodeData.dtype]
          rw [hnext]
          exact hpt _ (List.mem_cons_self _ _) trav m hstep
        | schema =>
          dsimp only [MerkleTreeNodeData.dtype, MerkleTreeNodeData.data] at hstep
          refine ⟨_, List.mem_cons_self _ _, ?_⟩
          have hnext : nextTrav trav (MerkleTreeNodeData.mk ch .schema cda ccs) = trav := by
            simp [nextTrav, MerkleTreeNodeData.dtype]
          rw [hnext]
          exact hpt _ (List.mem_cons_self _ _) trav m hstep

theorem getByPathHelper_sound (t : MerkleTreeNodeData) :
    ∀ trav p n, getByPathHelper trav p t = .ok (some n) → (p, n) ∈ nodesAt trav t := by
  induction t using MerkleTreeNodeData.inductionOn with
  | _ ha dt da cs ih =>
    intro trav p n h
    rw [getByPathHelper.eq_def] at h
    dsimp only at h
    by_cases hlen : trav.length > p.length
    · rw [if_pos hlen] at h
      simp at h
    rw [if_neg hlen] at h
    have hsearch : searchChildren trav p cs = .ok (some n) →
        (dt = .commit ∨ dt = .dir ∨ dt = .vnode) →
        (p, n) ∈ nodesAt trav (.mk ha dt da cs) := by
      intro hs hd
      obtain ⟨c, hc, hm⟩ := searchChildren_sound p cs
        (fun c hc trav2 n2 => ih c hc trav2 p n2) trav n hs
      rcases hd with rfl | rfl | rfl
      all_goals
        rw [nodesAt_eq]
        refine List.mem_append.mpr (Or.inr ?_)
        simp only [List.mem_flatten, List.mem_map]
        exact ⟨nodesAt (nextTrav trav c) c, ⟨c, hc, rfl⟩, hm⟩
    cases dt with
    | commit =>
      dsimp only at h
      exact hsearch h (Or.inl rfl)
    | vnode =>
      dsimp only at h
      exact hsearch h (Or.inr (Or.inr rfl))
    | dir =>
      dsimp only at h
      by_cases htp : trav = p
      · rw [if_pos htp] at h
        have hn : n = .mk ha .dir da cs := by
          have h2 := h.symm
          simpa using h2
        subst hn
        rw [nodesAt_eq]
        refine List.mem_append.mpr (Or.inl ?_)
        unfold selfEntries
        simp only [MerkleTreeNodeData.dtype, MerkleTreeNodeData.data]
        simp [htp]
      · rw [if_neg htp] at h
        exact hsearch h (Or.inr (Or.inl rfl))
    | file =>
      cases da with
      | file name =>
        dsimp only at h
        by_cases hjp : pathJoin trav name = p
        · rw [if_pos hjp] at h
          have hn : n = .mk ha .file (.file name) cs := by
            have h2 := h.symm
            simpa using h2
          subst hn
          rw [nodesAt_eq]
          refine List.mem_append.mpr (Or.inl ?_)
          unfold selfEntries
          simp only [MerkleTreeNodeData.dtype, MerkleTreeNodeData.data]
          simp [hjp]
        · rw [if_neg hjp] at h
          simp at h
      | commit => dsimp only at h; simp at h
      | vnode => dsimp only at h; simp at h
      | dir name => dsimp only at h; simp at h
      | fileChunk => dsimp only at h; simp at h
      | schema => dsimp only at h; simp at h
    | fileChunk =>
      dsimp only at h
      simp at h
    | schema =>
      dsimp only at h
      simp at h

theorem searchChildren_cons_wf (trav p : OxPath) (c : MerkleTreeNodeData)
    (rest : List MerkleTreeNodeData) (hwf : wellFormed c) :
    searchChildren trav p (c :: rest)
      = match getByPathHelper (nextTrav trav c) p c with
        | .error e => .error e
        | .ok (some n) => .ok (some n)
        | .ok none => searchChildren trav p rest := by
  rcases c with ⟨ch, cdt, cda, ccs⟩
  rw [wellFormed_mk] at hwf
  obtain ⟨hagree, _⟩ := hwf
  rw [searchChildren.eq_def]
  cases cdt <;> cases cda <;> simp only [payloadAgrees] at hagree <;>
    (try exact absurd hagree (by decide))
  all_goals
    dsimp only
    simp [nextTrav, MerkleTreeNodeData.dtype, MerkleTreeNodeData.dirNameD,
      MerkleTreeNodeData.data]

theorem searchChildren_total (p : OxPath) :
    ∀ (cs : List MerkleTreeNodeData),
      (∀ c ∈ cs, wellFormed c) →
      (∀ c ∈ cs, ∀ trav2, ∃ r, getByPathHelper trav2 p c = .ok r) →
      ∀ trav, ∃ r, searchChildren trav p cs = .ok r := by
  intro cs
  induction cs with
  | nil =>
    intro _ _ trav
    exact ⟨none, by simp [searchChildren]⟩
  | cons c rest ih =>
    intro hwf hpt trav
    rw [searchChildren_cons_wf trav p c rest (hwf c (List.mem_cons_self c rest))]
    obtain ⟨r, hr⟩ := hpt c (List.mem_cons_self c rest) (nextTrav trav c)
    rw [hr]
    cases r with
    | some m => exact ⟨some m, rfl⟩
    | none =>
      exact ih (fun c2 h2 => hwf c2 (List.mem_cons_of_mem c h2))
        (fun c2 h2 => hpt c2 (List.mem_cons_of_mem c h2)) trav

theorem getByPathHelper_total (t : MerkleTreeNodeData) :
    wellFormed t → ∀ trav p, ∃ r, getByPathHelper trav p t = .ok r := by
  induction t using MerkleTreeNodeData.inductionOn with
  | _ ha dt da cs ih =>
    intro hwf trav p
    rw [wellFormed_mk] at hwf
    obtain ⟨hagree, hwfc⟩ := hwf
    rw [getByPathHelper.eq_def]
    dsimp only
    by_cases hlen : trav.length > p.length
    · rw [if_pos hlen]
      exact ⟨none, rfl⟩
    rw [if_neg hlen]
    have hst := searchChildren_total p cs hwfc (fun c hc trav2 => ih c hc (hwfc c hc) trav2 p)
    cases dt with
    | commit =>
      dsimp only
      exact hst trav
    | vnode =>
      dsimp only
      exact hst trav
    | dir =>
      dsimp only
      by_cases htp : trav = p
      · rw [if_pos htp]
        exact ⟨_, rfl⟩
      · rw [if_neg htp]
        exact hst trav
    | file =>
      cases da with
      | file name =>
        dsimp only
        by_cases hjp : pathJoin trav name = p
        · rw [if_pos hjp]
          exact ⟨_, rfl⟩
        · rw [if_neg hjp]
          exact ⟨none, rfl⟩
      | commit => simp [payloadAgrees] at hagree
      | vnode => simp [payloadAgrees] at hagree
      | dir name => simp [payloadAgrees] at hagree
      | fileChunk => simp [payloadAgrees] at hagree
      | schema => simp [payloadAgrees] at hagree
    | fileChunk =>
      dsimp only
      exact ⟨none, rfl⟩
    | schema =>
      dsimp only
      exact ⟨none, rfl⟩

theorem searchChildren_complete (p : OxPath) :
    ∀ (cs : List MerkleTreeNodeData),
      (∀ c ∈ cs, wellFormed c) →
      (∀ c ∈ cs, ∀ trav2, (∃ n, (p, n) ∈ nodesAt trav2 c) →
          ∃ m, getByPathHelper trav2 p c = .ok (some m)) →
      ∀ trav, (∃ c ∈ cs, ∃ n, (p, n) ∈ nodesAt (nextTrav trav c) c) →
        ∃ m, searchChildren trav p cs = .ok (some m) := by
  intro cs
  induction cs with
  | nil =>
    intro _ _ trav hex
    obtain ⟨c, hc, _⟩ := hex
    simp at hc
  | cons c rest ih =>
    intro hwf hcomp trav hex
    rw [searchChildren_cons_wf trav p c rest (hwf c (List.mem_cons_self c rest))]
    obtain ⟨r, hr⟩ := getByPathHelper_total c (hwf c (List.mem_cons_self c rest))
      (nextTrav trav c) p
    rw [hr]
    cases r with
    | some m => exact ⟨m, rfl⟩
    | none =>
      rcases hex with ⟨c0, hc0, n0, hn0⟩
      rcases List.mem_cons.mp hc0 with rfl | hc0r
      · obtain ⟨m, hm⟩ := hcomp c0 (List.mem_cons_self c0 rest) (nextTrav trav c0) ⟨n0, hn0⟩
        rw [hm] at hr
        simp at hr
      · exact ih (fun c2 h2 => hwf c2 (List.mem_cons_of_mem c h2))
          (fun c2 h2 => hcomp c2 (List.mem_cons_of_mem c h2)) trav ⟨c0, hc0r, n0, hn0⟩

theorem getByPathHelper_complete (t : MerkleTreeNodeData) :
    wellFormed t → ∀ trav p, (∃ n, (p, n) ∈ nodesAt trav t) →
      ∃ m, getByPathHelper trav p t = .ok (some m) := by
  induction t using MerkleTreeNodeData.inductionOn with
  | _ ha dt da cs ih =>
    intro hwf trav p hex
    obtain ⟨n, hn⟩ := hex
    rw [wellFormed_mk] at hwf
    obtain ⟨hagree, hwfc⟩ := hwf
    rw [getByPathHelper.eq_def]
    dsimp only
    by_cases hlen : trav.length > p.length
    · exfalso
      have := nodesAt_length _ trav p n hn
      omega
    rw [if_neg hlen]
    rw [nodesAt_eq] at hn
    rcases List.mem_append.mp hn with hself | hrec
    · obtain ⟨hnself, hcase⟩ := selfEntries_mem trav p n _ hself
      rcases hcase with ⟨hdtf, name, hdaf, hp⟩ | ⟨hdtd, hp⟩
      · have hdt2 : dt = .file := hdtf
        have hda2 : da = .file name := hdaf
        subst hdt2
        subst hda2
        dsimp only
        rw [if_pos hp.symm]
        exact ⟨_, rfl⟩
      · have hdt2 : dt = .dir := hdtd
        subst hdt2
        dsimp only
        rw [if_pos hp.symm]
        exact ⟨_, rfl⟩
    · have hex2 : ∀ (_ : dt = .commit ∨ dt = .dir ∨ dt = .vnode),
          ∃ c ∈ cs, ∃ n0, (p, n0) ∈ nodesAt (nextTrav trav c) c := by
        intro hd
        rcases hd with rfl | rfl | rfl
        all_goals
          simp only [List.mem_flatten, List.mem_map] at hrec
          obtain ⟨l, ⟨c, hc, rfl⟩, hl⟩ := hrec
          exact ⟨c, hc, n, hl⟩
      have hsc := fun hd => searchChildren_complete p cs hwfc
        (fun c hc trav2 hex3 => ih c hc (hwfc c hc) trav2 p hex3) trav (hex2 hd)
      cases dt with
      | commit =>
        dsimp only
        exact hsc (Or.inl rfl)
      | vnode =>
        dsimp only
        exact hsc (Or.inr (Or.inr rfl))
      | dir =>
        dsimp only
        by_cases htp : trav = p
        · rw [if_pos htp]
          exact ⟨_, rfl⟩
        · rw [if_neg htp]
          exact hsc (Or.inr (Or.inl rfl))
      | file =>
        exfalso
        simp at hrec
      | fileChunk =>
        exfalso
        simp at hrec
      | schema =>
        exfalso
        simp at hrec

/-- C10: on a well-formed loaded tree, `get_by_path(p)` returns
`Ok(Some(node))` only for a node whose accumulated traversal path (dir
names joined along the way, plus the file name for file nodes) equals
`p`; when some node lies at `p` it finds one; and when no node lies at
`p` it returns `Ok(None)`, not an error — in particular the early
pruning on component counts never misses a node located at `p`. -/
theorem c10_get_by_path (t : MerkleTreeNodeData) (p : OxPath) (hwf : wellFormed t) :
    (∀ n, get_by_path t p = .ok (some n) → (p, n) ∈ nodesAt [] t)
    ∧ ((∃ n, (p, n) ∈ nodesAt [] t) → ∃ m, get_by_path t p = .ok (some m))
    ∧ ((¬ ∃ n, (p, n) ∈ nodesAt [] t) → get_by_path t p = .ok none) := by
  refine ⟨fun n h => getByPathHelper_sound t [] p n h,
    fun hex => getByPathHelper_complete t hwf [] p hex,
    fun hnex => ?_⟩
  obtain ⟨r, hr⟩ := getByPathHelper_total t hwf [] p
  cases r with
  | none => exact hr
  | some m => exact absurd ⟨m, getByPathHelper_sound t [] p m hr⟩ hnex

/-- C10, witness: the example tree is well formed and the lookup of
`sub/b.txt` finds a node. -/
theorem c10_get_by_path_witness :
    wellFormed exampleTree
    ∧ ∃ m, get_by_path exampleTree ["sub", "b.txt"] = .ok (some m) := by
  have hwf : wellFormed exampleTree := by
    simp [exampleTree, wellFormed_mk, payloadAgrees]
  refine ⟨hwf, (c10_get_by_path exampleTree ["sub", "b.txt"] hwf).2.1 ?_⟩
  refine ⟨.mk 700 .file (.file "b.txt") [], ?_⟩
  simp [exampleTree, nodesAt_eq, selfEntries, nextTrav, pathJoin,
    MerkleTreeNodeData.dtype, MerkleTreeNodeData.data, MerkleTreeNodeData.dirNameD]

/-- C9, witness for the amended theorem: the lowercase rendering bounds
applied at a concrete 128-bit value. -/
theorem c9_hash_rendering_witness :
    1 ≤ (formatLowerHex 5).length ∧ (formatLowerHex 5).length ≤ 32 :=
  ⟨(c9_hash_rendering.2.2 5 (by norm_num)).1,
   (c9_hash_rendering.2.2 5 (by norm_num)).2.1⟩

end Oxen
